import Mathlib

/-!
Verification model of the concurrent content search engine in
`tools/search/search_code.go` of the gocreate repository.

The Go code is shallowly embedded: text is modelled at the rune level
(`Char`), machine integers as `Nat` (no arithmetic here approaches the
64-bit range), the filesystem as a rose tree of named entries, and the
cancellable execution context (`context.Context`) as an optional fuel
counter that ticks once per scanned line (`none` = a context that is
never cancelled, `some 0` = a context whose deadline has passed).

The engine's concurrency (worker pool, walker goroutine, buffered
channels) is embedded by its sequential denotation: one worker draining
the path queue in walk order, fused with the collector loop.  For the
properties proved here this is faithful: the final `SearchResults` is
sorted after draining, every match is delivered exactly once, and the
shared `resultCount` stopping rule makes the delivered match count
independent of the interleaving (workers stop emitting exactly when the
count reaches the cap, and the collector truncates at the same cap).

`regexp.Compile` / `Regexp.FindStringIndex` belong to the Go standard
library, not to this repository; they are modelled by a recursive-descent
parser for the fragment of RE2 syntax the claims exercise (literal runes,
`.`, `*`, `+`, `?`, `|`, grouping, character classes, escaped
punctuation, and a leading `(?i)` flag) together with Brzozowski
derivative matching.  Case folding is modelled with `Char.toLower`
(ASCII simple folding), which is also the model of `strings.ToLower`.
-/

namespace Gocreate

/-! ## Model of the Go regexp fragment (Go standard library) -/

/-- Abstract syntax of the modelled regular-expression fragment. -/
inductive Regex where
  | emptyR
  | epsilon
  | char (c : Char)
  | anyChar
  | seq (r₁ r₂ : Regex)
  | alt (r₁ r₂ : Regex)
  | star (r : Regex)
  | cls (neg : Bool) (ranges : List (Char × Char))
deriving DecidableEq, Repr

/-- Metacharacters of `isLiteralPattern` in search_code.go, as runes
(the Go source lists them as one-rune strings and uses
`strings.Contains`, which for a one-rune string is rune membership). -/
def metaChars : List Char :=
  ['.', '*', '+', '?', '^', '$', '(', ')', '[', ']', '{', '}', '|', '\\']

/-- Case folding used by the model for `(?i)` and `strings.ToLower`
(ASCII simple folding). -/
def foldCase (ci : Bool) (c : Char) : Char :=
  if ci then c.toLower else c

/-- Membership of a rune in a list of character-class ranges. -/
def inRanges (c : Char) (ranges : List (Char × Char)) : Bool :=
  ranges.any fun ab => decide (ab.1 ≤ c) && decide (c ≤ ab.2)

/-- Parse the items of a character class up to the closing bracket;
an unterminated class (as in the pattern `[invalid`) fails. -/
def parseClassItems : List Char → Option (List (Char × Char) × List Char)
  | [] => none
  | ']' :: rest => some ([], rest)
  | a :: '-' :: b :: rest =>
    if a = '\\' ∨ b = ']' ∨ b = '\\' then none
    else (parseClassItems rest).map fun p => ((a, b) :: p.1, p.2)
  | a :: rest =>
    if a = '\\' then none
    else (parseClassItems rest).map fun p => ((a, a) :: p.1, p.2)

/-- Parse a character class after the opening `[`. -/
def parseClass (s : List Char) : Option (Regex × List Char) :=
  match s with
  | '^' :: rest => (parseClassItems rest).map fun p => (Regex.cls true p.1, p.2)
  | _ => (parseClassItems s).map fun p => (Regex.cls false p.1, p.2)

mutual

/-- Alternation level of the recursive-descent parser (fuel-indexed). -/
def parseAlt : Nat → List Char → Option (Regex × List Char)
  | 0, _ => none
  | fuel + 1, s =>
    match parseConcat fuel s with
    | none => none
    | some (r, rest) =>
      match rest with
      | [] => some (r, [])
      | c :: rest₂ =>
        if c = '|' then
          match parseAlt fuel rest₂ with
          | some (r₂, rest₃) => some (Regex.alt r r₂, rest₃)
          | none => none
        else some (r, c :: rest₂)

/-- Concatenation level of the recursive-descent parser. -/
def parseConcat : Nat → List Char → Option (Regex × List Char)
  | 0, _ => none
  | fuel + 1, s =>
    match s with
    | [] => some (Regex.epsilon, [])
    | c :: _ =>
      if c = '|' ∨ c = ')' then some (Regex.epsilon, s)
      else
        match parseRep fuel s with
        | none => none
        | some (r, rest) =>
          match parseConcat fuel rest with
          | some (r₂, rest₂) => some (Regex.seq r r₂, rest₂)
          | none => none

/-- Postfix repetition level of the recursive-descent parser. -/
def parseRep : Nat → List Char → Option (Regex × List Char)
  | 0, _ => none
  | fuel + 1, s =>
    match parseAtom fuel s with
    | none => none
    | some (r, rest) =>
      match rest with
      | [] => some (r, [])
      | c :: rest₂ =>
        if c = '*' then some (Regex.star r, rest₂)
        else if c = '+' then some (Regex.seq r (Regex.star r), rest₂)
        else if c = '?' then some (Regex.alt r Regex.epsilon, rest₂)
        else some (r, c :: rest₂)

/-- Atom level of the recursive-descent parser. -/
def parseAtom : Nat → List Char → Option (Regex × List Char)
  | 0, _ => none
  | fuel + 1, s =>
    match s with
    | [] => none
    | c :: rest =>
      if c = '(' then
        match parseAlt fuel rest with
        | some (r, c₂ :: rest₂) => if c₂ = ')' then some (r, rest₂) else none
        | _ => none
      else if c = '[' then parseClass rest
      else if c = '\\' then
        match rest with
        | [] => none
        | c₂ :: rest₂ => if c₂.isAlphanum then none else some (Regex.char c₂, rest₂)
      else if c = '.' then some (Regex.anyChar, rest)
      else if c ∈ metaChars then none
      else some (Regex.char c, rest)

end

/-- Run the parser over a whole pattern body. -/
def compileBody (cs : List Char) : Option Regex :=
  match parseAlt (4 * cs.length + 8) cs with
  | some (r, []) => some r
  | _ => none

/-- Model of `regexp.Compile`: an optional leading `(?i)` flag followed by
the body; `none` models a compilation error. -/
def regexpCompile (pattern : String) : Option (Bool × Regex) :=
  if pattern.data.take 4 = ['(', '?', 'i', ')'] then
    (compileBody (pattern.data.drop 4)).map fun r => (true, r)
  else
    (compileBody pattern.data).map fun r => (false, r)

/-- Nullability: does the regex accept the empty string? -/
def nullable : Regex → Bool
  | .emptyR => false
  | .epsilon => true
  | .char _ => false
  | .anyChar => false
  | .seq r₁ r₂ => nullable r₁ && nullable r₂
  | .alt r₁ r₂ => nullable r₁ || nullable r₂
  | .star _ => true
  | .cls _ _ => false

/-- Brzozowski derivative with respect to one rune; `ci` enables case
folding, and `.` does not match a newline (as in RE2). -/
def deriv (ci : Bool) : Regex → Char → Regex
  | .emptyR, _ => .emptyR
  | .epsilon, _ => .emptyR
  | .char a, c => if foldCase ci c = foldCase ci a then .epsilon else .emptyR
  | .anyChar, c => if c = '\n' then .emptyR else .epsilon
  | .seq r₁ r₂, c =>
    if nullable r₁ then .alt (.seq (deriv ci r₁ c) r₂) (deriv ci r₂ c)
    else .seq (deriv ci r₁ c) r₂
  | .alt r₁ r₂, c => .alt (deriv ci r₁ c) (deriv ci r₂ c)
  | .star r, c => .seq (deriv ci r c) (.star r)
  | .cls neg ranges, c =>
    let hit := inRanges c ranges ||
      (ci && (inRanges c.toLower ranges || inRanges c.toUpper ranges))
    if hit ≠ neg then .epsilon else .emptyR

/-- Does some prefix of the input match the regex? -/
def matchesAtStart (ci : Bool) (r : Regex) : List Char → Bool
  | [] => nullable r
  | c :: s => nullable r || matchesAtStart ci (deriv ci r c) s

/-- Model of the start index of `Regexp.FindStringIndex`: the least
position at which a match of the regex begins, if any.  (The start of the
leftmost match is the same under leftmost-first and leftmost-longest
disambiguation, so this abstracts from RE2's choice.) -/
def findStart (ci : Bool) (r : Regex) : List Char → Option Nat
  | [] => if matchesAtStart ci r [] then some 0 else none
  | c :: s =>
    if matchesAtStart ci r (c :: s) then some 0
    else (findStart ci r s).map (· + 1)

/-! ## String helpers (Go standard library models) -/

/-- Model of `strings.ToLower` (ASCII simple folding, rune level). -/
def strToLower (s : String) : String := ⟨s.data.map Char.toLower⟩

/-- Least index at which `sub` occurs in the input, on rune lists. -/
def stringsIndexCore (sub : List Char) : List Char → Option Nat
  | [] => if sub.isPrefixOf ([] : List Char) then some 0 else none
  | c :: s => if sub.isPrefixOf (c :: s) then some 0 else (stringsIndexCore sub s).map (· + 1)

/-- Model of `strings.Index s sub` at the rune level. -/
def stringsIndex (s sub : String) : Option Nat :=
  stringsIndexCore sub.data s.data

/-- Drop one trailing carriage return, as in `bufio.ScanLines`. -/
def dropCR (l : List Char) : List Char :=
  if l.getLast? = some '\r' then l.dropLast else l

/-- Model of the line sequence produced by `bufio.Scanner` with
`ScanLines`: split at newlines, no empty final token after a trailing
newline, one trailing `\r` stripped per line, no tokens for empty input. -/
def splitLines (content : List Char) : List String :=
  if content = [] then []
  else
    let segs := content.splitOn '\n'
    let segs := if content.getLast? = some '\n' then segs.dropLast else segs
    segs.map fun l => ⟨dropCR l⟩

/-- Model of `filepath.Ext`: the suffix starting at the final dot in the
final slash-separated element, empty if that element has no dot. -/
def extOf (path : String) : String :=
  let revBase := path.data.reverse.takeWhile fun c => c ≠ '/'
  if revBase.contains '.' then
    ⟨'.' :: (revBase.takeWhile fun c => c ≠ '.').reverse⟩
  else ""

/-- Model of the fragment of `filepath.Match` the engine exercises:
`*` (any run of runes), `?` (any one rune), and literal runes.  File
names contain no separator, so the separator restriction on `*` and `?`
is vacuous here. -/
def globMatchCore : List Char → List Char → Bool
  | [], [] => true
  | '*' :: ps, s =>
    globMatchCore ps s ||
      (match s with
       | [] => false
       | _ :: s₂ => globMatchCore ('*' :: ps) s₂)
  | '?' :: ps, _ :: ss => globMatchCore ps ss
  | p :: ps, c :: ss => p = c && globMatchCore ps ss
  | _, _ => false

/-- Model of `filepath.Match pattern name` (ignoring its error result,
as the Go caller does). -/
def globMatch (pattern name : String) : Bool :=
  globMatchCore pattern.data name.data

/-- Path join as performed by `filepath.Walk` when descending. -/
def joinPath (dir name : String) : String := dir ++ "/" ++ name

/-- Model of `strings.HasPrefix` at the rune level. -/
def hasPrefixGo (s pre : String) : Bool := pre.data.isPrefixOf s.data

/-- Lexicographic rune-list comparison (model of Go byte-wise `<` on
strings, at the rune level). -/
def listLT : List Char → List Char → Bool
  | [], [] => false
  | [], _ :: _ => true
  | _ :: _, [] => false
  | a :: as, b :: bs =>
    if a < b then true
    else if b < a then false
    else listLT as bs

/-- Model of Go string comparison `s < t`. -/
def strLT (s t : String) : Bool := listLT s.data t.data

/-! ## Data model (search_code.go) -/

/-- SearchConfig of search_code.go.  `maxResults = 0` and
`contextLines = 0` are the "disabled" values, matching the Go code's
`> 0` guards; `timeoutMs = 0` means no timeout. -/
structure SearchConfig where
  searchPath : String
  pattern : String
  maxWorkers : Nat
  bufferSize : Nat
  maxResults : Nat
  useOptimization : Bool
  useGitignore : Bool
  ignoreCase : Bool
  filePattern : String
  contextLines : Nat
  includeHidden : Bool
  timeoutMs : Nat
deriving DecidableEq, Repr

/-- SearchMatch of search_code.go. -/
structure SearchMatch where
  file : String
  line : Nat
  column : Nat
  content : String
  context : List String
deriving DecidableEq, Repr

/-- SearchStats of search_code.go, minus the wall-clock `Duration`
field (real time is outside the model). -/
structure SearchStats where
  filesScanned : Nat
  bytesScanned : Nat
  matchesFound : Nat
deriving DecidableEq, Repr

/-- SearchResults of search_code.go (`matches` is reserved in Lean, so
the Go field name `Matches` keeps its exported spelling). -/
structure SearchResults where
  Matches : List SearchMatch
  stats : SearchStats
deriving DecidableEq, Repr

/-- HasMatches of search_code.go. -/
def SearchResults.hasMatches (r : SearchResults) : Bool :=
  decide (0 < r.Matches.length)

/-- The hard error surfaced by `Search` (`invalid regex pattern`),
plus `deadlineExceeded` modelling `context.DeadlineExceeded`, which the
tool handler compares against. -/
inductive SearchError where
  | invalidPattern
  | deadlineExceeded
deriving DecidableEq, Repr

/-- Per-file conditions returned by `searchFile` (and by `os.Open`),
swallowed by the worker loop. -/
inductive FileError where
  | openError
  | cancelled
deriving DecidableEq, Repr

/-- A regular file as seen by the model: its absolute path, base name,
content (runes standing for bytes), and whether opening/reading it
fails. -/
structure FileInfo where
  path : String
  name : String
  content : List Char
  readErr : Bool
deriving DecidableEq, Repr

/-- A filesystem entry: a regular file or a directory with entries.
`filepath.Walk` visits entries in lexical order; the model takes the
entry lists as already being in that visit order. -/
inductive FSEntry where
  | file (name : String) (content : List Char) (readErr : Bool)
  | dir (name : String) (entries : List FSEntry)

/-- The cancellable context: `none` is `context.Background()` (never
done), `some n` is a deadline context that becomes done after `n`
further lines are scanned. -/
def Ctx : Type := Option Nat

/-- Is the context's done channel closed? -/
def ctxDone : Option Nat → Bool
  | some 0 => true
  | _ => false

/-- Advance the clock by one scanned line. -/
def ctxTick : Option Nat → Option Nat
  | some (n + 1) => some n
  | c => c

/-! ## File classifier (isBinaryFile, shouldSkipFile, isLiteralPattern) -/

/-- The fixed deny-list of binary extensions in isBinaryFile. -/
def binaryExts : List String :=
  [".exe", ".dll", ".so", ".dylib",
   ".bin", ".obj", ".o", ".a",
   ".jpg", ".jpeg", ".png", ".gif",
   ".pdf", ".zip", ".tar", ".gz",
   ".mp3", ".mp4", ".avi", ".mov"]

/-- isBinaryFile of search_code.go: deny-listed extension, else a
content sniff of the first 512 bytes for a zero byte; an unreadable
file is assumed binary. -/
def isBinaryFile (f : FileInfo) : Bool :=
  let ext := strToLower (extOf f.path)
  if binaryExts.contains ext then true
  else if f.readErr then true
  else (f.content.take 512).contains (Char.ofNat 0)

/-- isLiteralPattern of search_code.go. -/
def isLiteralPattern (pattern : String) : Bool :=
  !(metaChars.any fun c => pattern.data.contains c)

/-- shouldSkipFile of search_code.go.  The Go function receives the
path plus an `os.FileInfo`; here the path/name/content travel in
`FileInfo` and the directory bit is passed separately. -/
def shouldSkipFile (config : SearchConfig) (isDir : Bool) (f : FileInfo) : Bool :=
  if isDir then true
  else if !config.includeHidden && hasPrefixGo f.name "." then true
  else if isBinaryFile f then true
  else if config.filePattern ≠ "" && !globMatch config.filePattern f.name then true
  else false

/-! ## Directory walker

`filepath.Walk` plus the walk callback in `Search`: files passing the
classifier are enqueued in visit order; a hidden directory is pruned
with `filepath.SkipDir` unless hidden entries are included.  The walk
also observes the context, but only to stop enqueueing: since the
workers stop consuming at the same signal, the final result is that of
the sequential run below, so the model lets the walk complete. -/

mutual

/-- Files delivered to the work queue for one entry under `dirPath`. -/
def walkEntry (config : SearchConfig) (dirPath : String) : FSEntry → List FileInfo
  | .file name content readErr =>
    let f : FileInfo := ⟨joinPath dirPath name, name, content, readErr⟩
    if shouldSkipFile config false f then [] else [f]
  | .dir name entries =>
    if !config.includeHidden && hasPrefixGo name "." then []
    else walkList config (joinPath dirPath name) entries

/-- Files delivered to the work queue for a list of entries. -/
def walkList (config : SearchConfig) (dirPath : String) : List FSEntry → List FileInfo
  | [] => []
  | e :: es => walkEntry config dirPath e ++ walkList config dirPath es

end

/-! ## Search engine (NewSearchEngine, searchFile, Search) -/

/-- SearchEngine of search_code.go: the configuration, the compiled
regex (`none` both before compilation and after a failed one, like the
nil `*regexp.Regexp`), and the literal search string. -/
structure SearchEngine where
  config : SearchConfig
  pattern : Option (Bool × Regex)
  literalSearch : String

/-- NewSearchEngine of search_code.go: a literal pattern becomes a
(possibly case-folded) substring needle; otherwise the pattern is
compiled with a `(?i)` prefix when case-insensitive, and a compile
error leaves the engine with a nil regex, caught later in `Search`. -/
def NewSearchEngine (config : SearchConfig) : SearchEngine :=
  if isLiteralPattern config.pattern then
    { config := config, pattern := none,
      literalSearch :=
        if config.ignoreCase then strToLower config.pattern else config.pattern }
  else
    let p := if config.ignoreCase then "(?i)" ++ config.pattern else config.pattern
    match regexpCompile p with
    | some r => { config := config, pattern := some r, literalSearch := "" }
    | none => { config := config, pattern := none, literalSearch := "" }

/-- The per-line matcher of `searchFile`: the literal branch (guarded by
a non-empty needle, case-folding the line when configured), else the
regex branch (guarded by a non-nil compiled regex).  Returns the
1-indexed column of the first match, `none` when the line does not
match. -/
def lineMatchColumn (e : SearchEngine) (line : String) : Option Nat :=
  if e.literalSearch ≠ "" then
    let searchLine := if e.config.ignoreCase then strToLower line else line
    match stringsIndex searchLine e.literalSearch with
    | some idx => some (idx + 1)
    | none => none
  else
    match e.pattern with
    | some cr => (findStart cr.1 cr.2 line.data).map (· + 1)
    | none => none

/-- Output of one `searchFile` call: accumulated matches, bytes read,
the error slot, and the context as left by the scan. -/
structure ScanOut where
  ms : List SearchMatch
  bytes : Nat
  err : Option FileError
  ctx : Option Nat

/-- The line loop of `searchFile`: before each line the context is
checked (a done context returns the partial matches and byte count with
the cancellation as the error); each line adds `len+1` bytes, is
buffered when context lines are requested, and on a match — unless the
shared result count has already reached the cap — contributes one
`SearchMatch` whose context is the slice of buffered lines immediately
preceding it. -/
def scanLines (e : SearchEngine) (resultCount : Nat) (filePath : String) :
    List String → Nat → List String → List SearchMatch → Nat → Option Nat → ScanOut
  | [], _, _, acc, bytes, ctx => ⟨acc, bytes, none, ctx⟩
  | line :: rest, lineNum, buf, acc, bytes, ctx =>
    if ctxDone ctx then ⟨acc, bytes, some .cancelled, ctx⟩
    else
      let ctx₂ := ctxTick ctx
      let bytes₂ := bytes + line.length + 1
      let buf₂ := if 0 < e.config.contextLines then buf ++ [line] else buf
      match lineMatchColumn e line with
      | none => scanLines e resultCount filePath rest (lineNum + 1) buf₂ acc bytes₂ ctx₂
      | some col =>
        if 0 < e.config.maxResults ∧ e.config.maxResults ≤ resultCount then
          ⟨acc, bytes₂, none, ctx₂⟩
        else
          let context :=
            if 0 < e.config.contextLines ∧ 0 < buf₂.length then
              buf₂.dropLast.drop (buf₂.length - e.config.contextLines - 1)
            else []
          scanLines e resultCount filePath rest (lineNum + 1) buf₂
            (acc ++ [⟨filePath, lineNum, col, line, context⟩]) bytes₂ ctx₂

/-- searchFile of search_code.go: an unopenable file is an error with no
bytes; otherwise the scanner's lines are processed from line number 1. -/
def searchFileGo (e : SearchEngine) (resultCount : Nat) (f : FileInfo)
    (ctx : Option Nat) : ScanOut :=
  if f.readErr then ⟨[], 0, some .openError, ctx⟩
  else scanLines e resultCount f.path (splitLines f.content) 1 [] [] 0 ctx

/-- The per-match emission step of the worker loop: each match is sent
to the collector and counted; reaching the cap right after a send stops
the worker.  Returns the sent matches, the updated shared count, and
whether the cap was hit. -/
def emitMatches (maxResults : Nat) : List SearchMatch → Nat → List SearchMatch × Nat × Bool
  | [], count => ([], count, false)
  | m :: ms, count =>
    let count₂ := count + 1
    if 0 < maxResults ∧ maxResults ≤ count₂ then ([m], count₂, true)
    else
      let rec₂ := emitMatches maxResults ms count₂
      (m :: rec₂.1, rec₂.2)

/-- Output of the fused worker/collector loop. -/
structure RunOut where
  ms : List SearchMatch
  filesScanned : Nat
  bytesScanned : Nat
  resultCount : Nat
  ctx : Option Nat

/-- Sequential denotation of the worker pool and collector: for each
queued file the worker checks the context, scans the file, drops the
scan entirely on a per-file error (including cancellation mid-file),
otherwise counts the file and its bytes and emits its matches, halting
everything once the result cap is reached. -/
def runFiles (e : SearchEngine) : List FileInfo → Nat → Option Nat → RunOut
  | [], count, ctx => ⟨[], 0, 0, count, ctx⟩
  | f :: rest, count, ctx =>
    if ctxDone ctx then ⟨[], 0, 0, count, ctx⟩
    else
      let out := searchFileGo e count f ctx
      match out.err with
      | some _ => runFiles e rest count out.ctx
      | none =>
        let em := emitMatches e.config.maxResults out.ms count
        if em.2.2 then ⟨em.1, 1, out.bytes, em.2.1, out.ctx⟩
        else
          let r := runFiles e rest em.2.1 out.ctx
          ⟨em.1 ++ r.ms, r.filesScanned + 1, r.bytesScanned + out.bytes, r.resultCount, r.ctx⟩

/-- The comparison of the final `sort.Slice` call, as a total order:
`a` precedes `b` when its file path is smaller, or on the same path when
its line number is not larger. -/
def matchLE (a b : SearchMatch) : Bool :=
  strLT a.file b.file || (decide (a.file = b.file) && decide (a.line ≤ b.line))

/-- The final sort of `Search` (file path lexicographic, then line).
`sort.Slice` guarantees exactly "sorted by the less function"; the
model realizes it with an insertion sort, which the ordering lemmas
below characterize. -/
def sortMatches (ms : List SearchMatch) : List SearchMatch :=
  List.insertionSort (fun a b => matchLE a b = true) ms

/-- The post-validation phase of `Search`: walk, scan, sort, and compute
final statistics.  The collector's own `>= MaxResults` break is
subsumed: the emission rule never delivers more than the cap. -/
def runPhase (e : SearchEngine) (root : List FSEntry) (ctx : Option Nat) : SearchResults :=
  let files := walkList e.config e.config.searchPath root
  let out := runFiles e files 0 ctx
  let sorted := sortMatches out.ms
  { Matches := sorted,
    stats :=
      { filesScanned := out.filesScanned,
        bytesScanned := out.bytesScanned,
        matchesFound := sorted.length } }

/-- Search of search_code.go: a nil compiled regex together with a
non-literal pattern triggers (re)compilation, whose failure is the
`invalid regex pattern` error returned before any filesystem work; in
every other case the search runs to a `SearchResults` with a nil
error. -/
def SearchEngine.search (e : SearchEngine) (pattern : String) (root : List FSEntry)
    (ctx : Option Nat) : Except SearchError SearchResults :=
  if e.pattern.isNone ∧ ¬isLiteralPattern pattern then
    match regexpCompile (if e.config.ignoreCase then "(?i)" ++ pattern else pattern) with
    | none => .error .invalidPattern
    | some r => .ok (runPhase { e with pattern := some r } root ctx)
  else .ok (runPhase e root ctx)

/-- `Search` as invoked from `Find`: engine built from the
configuration, searched with the configuration's own pattern. -/
def runSearch (config : SearchConfig) (root : List FSEntry) (ctx : Option Nat) :
    Except SearchError SearchResults :=
  (NewSearchEngine config).search config.pattern root ctx

/-! ## Find, functional options, and the tool handler -/

/-- The functional options of search_code.go. -/
inductive SearchOption where
  | withIgnoreCase
  | withContextLines (lines : Nat)
  | withFilePattern (pattern : String)
  | withMaxResults (max : Nat)
  | withWorkers (workers : Nat)
  | withHidden
  | withTimeout (ms : Nat)
  | withGitignore (enabled : Bool)
  | withBufferSize (size : Nat)
  | withOptimization (enabled : Bool)

/-- Application of one functional option to a configuration. -/
def applyOption (c : SearchConfig) : SearchOption → SearchConfig
  | .withIgnoreCase => { c with ignoreCase := true }
  | .withContextLines lines => { c with contextLines := lines }
  | .withFilePattern pattern => { c with filePattern := pattern }
  | .withMaxResults max => { c with maxResults := max }
  | .withWorkers workers => { c with maxWorkers := workers }
  | .withHidden => { c with includeHidden := true }
  | .withTimeout ms => { c with timeoutMs := ms }
  | .withGitignore enabled => { c with useGitignore := enabled }
  | .withBufferSize size => { c with bufferSize := size }
  | .withOptimization enabled => { c with useOptimization := enabled }

/-- The default configuration built inside `Find` (`runtime.NumCPU()`
taken as a parameter). -/
def defaultConfig (pattern searchPath : String) (numCPU : Nat) : SearchConfig :=
  { searchPath := searchPath, pattern := pattern,
    maxWorkers := numCPU, bufferSize := 64 * 1024, maxResults := 1000,
    useOptimization := true, useGitignore := false, ignoreCase := false,
    filePattern := "", contextLines := 0, includeHidden := false, timeoutMs := 0 }

/-- Find of search_code.go: defaults, options, engine, and a deadline
context exactly when a positive timeout is configured.  `budget` is the
model's answer to "how many lines fit into the wall-clock timeout". -/
def Find (pattern searchPath : String) (options : List SearchOption)
    (numCPU : Nat) (root : List FSEntry) (budget : Nat) :
    Except SearchError SearchResults :=
  let config := options.foldl applyOption (defaultConfig pattern searchPath numCPU)
  let ctx : Option Nat := if 0 < config.timeoutMs then some budget else none
  (NewSearchEngine config).search pattern root ctx

/-- SearchCodeArgs of search_code.go (numeric arguments as `Nat`: the
handler only forwards them under `> 0` guards, so the sign never
matters downstream). -/
structure SearchCodeArgs where
  path : String
  pattern : String
  filePattern : Option String
  ignoreCase : Option Bool
  maxResults : Option Nat
  includeHidden : Option Bool
  contextLines : Option Nat
  timeoutMs : Option Nat

/-- The option list built by HandleSearchCode from its arguments. -/
def handlerOptions (args : SearchCodeArgs) : List SearchOption :=
  (match args.ignoreCase with
   | some true => [SearchOption.withIgnoreCase]
   | _ => []) ++
  (match args.contextLines with
   | some n => if 0 < n then [SearchOption.withContextLines n] else []
   | none => []) ++
  (match args.filePattern with
   | some p => if p ≠ "" then [SearchOption.withFilePattern p] else []
   | none => []) ++
  (match args.maxResults with
   | some n => if 0 < n then [SearchOption.withMaxResults n] else []
   | none => []) ++
  (match args.includeHidden with
   | some true => [SearchOption.withHidden]
   | _ => []) ++
  (match args.timeoutMs with
   | some n => if 0 < n then [SearchOption.withTimeout n] else []
   | none => [])

/-- One `path:line:content` block of the ripgrep-like output, followed
by `path-context` lines. -/
def formatMatch (m : SearchMatch) : String :=
  m.file ++ ":" ++ toString m.line ++ ":" ++ m.content ++ "\n" ++
    String.join (m.context.map fun c => m.file ++ "-" ++ c ++ "\n")

/-- Model of `strings.TrimSuffix s "\n"`: one trailing newline removed. -/
def trimNewline (s : String) : String :=
  if s.data.getLast? = some '\n' then ⟨s.data.dropLast⟩ else s

/-- HandleSearchCode of search_code.go: a `DeadlineExceeded` error from
`Find` becomes the status string `Search timed out.`, any other error is
surfaced, no matches yield the empty string, and otherwise the matches
are rendered in ripgrep-like format. -/
def HandleSearchCode (args : SearchCodeArgs) (numCPU : Nat) (root : List FSEntry)
    (budget : Nat) : Except String String :=
  match Find args.pattern args.path (handlerOptions args) numCPU root budget with
  | .error err =>
    if err = .deadlineExceeded then .ok "Search timed out."
    else .error "search failed"
  | .ok results =>
    if !results.hasMatches then .ok ""
    else .ok (trimNewline (String.join (results.Matches.map formatMatch)))

/-! ## Specification-side definitions

These definitions restate parts of the claims in the spec's own terms,
to be compared with the code model above. -/

/-- The pattern string actually handed to the regex compiler: a `(?i)`
prefix is injected when case-insensitive. -/
def ciPattern (config : SearchConfig) : String :=
  if config.ignoreCase then "(?i)" ++ config.pattern else config.pattern

/-- The regex denotation of a sequence of literal runes. -/
def charSeq : List Char → Regex
  | [] => Regex.epsilon
  | c :: cs => Regex.seq (Regex.char c) (charSeq cs)

/-- Spec-side matcher for one line: what "compiling the same pattern as
a regular expression" reports — the 1-indexed column of the first
match position, if any. -/
def regexMatchColumn (config : SearchConfig) (line : String) : Option Nat :=
  match regexpCompile (ciPattern config) with
  | some cr => (findStart cr.1 cr.2 line.data).map (· + 1)
  | none => none

/-- Pure denotation of one full, uncancelled, uncapped file scan: the
matches it contributes, in line order. -/
def newMatches (e : SearchEngine) (filePath : String) :
    List String → Nat → List String → List SearchMatch
  | [], _, _ => []
  | line :: rest, lineNum, buf =>
    let buf₂ := if 0 < e.config.contextLines then buf ++ [line] else buf
    match lineMatchColumn e line with
    | none => newMatches e filePath rest (lineNum + 1) buf₂
    | some col =>
      let context :=
        if 0 < e.config.contextLines ∧ 0 < buf₂.length then
          buf₂.dropLast.drop (buf₂.length - e.config.contextLines - 1)
        else []
      ⟨filePath, lineNum, col, line, context⟩ :: newMatches e filePath rest (lineNum + 1) buf₂

/-- Bytes reported for a list of scanned lines (`len+1` per line). -/
def lineBytes (lines : List String) : Nat :=
  (lines.map fun l => l.length + 1).sum

/-- The matches of one fully scanned file. -/
def fileMatches (e : SearchEngine) (f : FileInfo) : List SearchMatch :=
  newMatches e f.path (splitLines f.content) 1 []

/-- The byte count of one fully scanned file. -/
def fileScanBytes (f : FileInfo) : Nat :=
  lineBytes (splitLines f.content)

/-- The number of matching lines of one file under the engine's
per-line matcher. -/
def fileMatchCount (e : SearchEngine) (f : FileInfo) : Nat :=
  ((splitLines f.content).filter fun l => (lineMatchColumn e l).isSome).length

mutual

/-- Every regular file under one entry, with no pruning at all:
the claim's "regular files under the root path". -/
def allFilesEntry (dirPath : String) : FSEntry → List FileInfo
  | .file name content readErr => [⟨joinPath dirPath name, name, content, readErr⟩]
  | .dir name entries => allFilesList (joinPath dirPath name) entries

/-- Every regular file under a list of entries, with no pruning. -/
def allFilesList (dirPath : String) : List FSEntry → List FileInfo
  | [] => []
  | e :: es => allFilesEntry dirPath e ++ allFilesList dirPath es

end

mutual

/-- Every regular file under one entry reachable without descending
into hidden directories. -/
def prunedFilesEntry (dirPath : String) : FSEntry → List FileInfo
  | .file name content readErr => [⟨joinPath dirPath name, name, content, readErr⟩]
  | .dir name entries =>
    if hasPrefixGo name "." then [] else prunedFilesList (joinPath dirPath name) entries

/-- Every regular file under a list of entries reachable without
descending into hidden directories. -/
def prunedFilesList (dirPath : String) : List FSEntry → List FileInfo
  | [] => []
  | e :: es => prunedFilesEntry dirPath e ++ prunedFilesList dirPath es

end

/-- C1's claimed count: matching lines summed over every non-binary,
non-hidden regular file under the root path. -/
def c1ClaimCount (config : SearchConfig) (root : List FSEntry) : Nat :=
  (((allFilesList config.searchPath root).filter fun f =>
      !(hasPrefixGo f.name ".") && !isBinaryFile f).map
    (fileMatchCount (NewSearchEngine config))).sum

/-- The amended count for C1: matching lines summed over every
non-binary, non-hidden regular file reachable from the root without
descending into hidden directories. -/
def c1AmendedCount (config : SearchConfig) (root : List FSEntry) : Nat :=
  (((prunedFilesList config.searchPath root).filter fun f =>
      !(hasPrefixGo f.name ".") && !isBinaryFile f).map
    (fileMatchCount (NewSearchEngine config))).sum

/-- Total matching lines over the files the walker actually delivers. -/
def walkMatchTotal (config : SearchConfig) (root : List FSEntry) : Nat :=
  ((walkList config config.searchPath root).map
    (fileMatchCount (NewSearchEngine config))).sum

/-! ## Lemmas: the two outcomes of Search -/

/-- A literal pattern or a compilable non-literal pattern makes `Search`
run the whole pipeline and return it as a non-error result. -/
theorem runSearch_ok (config : SearchConfig) (root : List FSEntry) (ctx : Option Nat)
    (h : isLiteralPattern config.pattern = true ∨
      (regexpCompile (ciPattern config)).isSome = true) :
    runSearch config root ctx = .ok (runPhase (NewSearchEngine config) root ctx) := by
  by_cases hl : isLiteralPattern config.pattern = true
  · unfold runSearch SearchEngine.search
    simp [hl]
  · have hc : ∃ cr, regexpCompile (ciPattern config) = some cr := by
      rcases h with h | h
      · exact absurd h hl
      · exact Option.isSome_iff_exists.mp h
    rcases hc with ⟨cr, hcr⟩
    have he : NewSearchEngine config =
        { config := config, pattern := some cr, literalSearch := "" } := by
      unfold NewSearchEngine
      rw [if_neg hl]
      simp only [ciPattern] at hcr
      simp only [hcr]
    unfold runSearch SearchEngine.search
    rw [he]
    simp

/-- A non-literal pattern that fails to compile makes `Search` return
the invalid-pattern error, whatever the tree and context are. -/
theorem runSearch_err (config : SearchConfig) (root : List FSEntry) (ctx : Option Nat)
    (hl : isLiteralPattern config.pattern = false)
    (hc : regexpCompile (ciPattern config) = none) :
    runSearch config root ctx = .error .invalidPattern := by
  have he : NewSearchEngine config =
      { config := config, pattern := none, literalSearch := "" } := by
    unfold NewSearchEngine
    rw [if_neg (by simp [hl])]
    simp only [ciPattern] at hc
    simp only [hc]
  unfold runSearch SearchEngine.search
  rw [he]
  simp only [ciPattern] at hc
  simp [hl, hc]

/-! ## Lemmas: the final sort -/

/-- The structural lexicographic comparison agrees with the rune-list
order. -/
theorem listLT_iff : ∀ (as bs : List Char), listLT as bs = true ↔ as < bs := by
  intro as
  induction as with
  | nil =>
    intro bs
    cases bs with
    | nil =>
      simp only [listLT, Bool.false_eq_true, false_iff]
      intro h
      cases h
    | cons b bs =>
      simp only [listLT, true_iff]
      exact List.Lex.nil
  | cons a as ih =>
    intro bs
    cases bs with
    | nil =>
      simp only [listLT, Bool.false_eq_true, false_iff]
      intro h
      cases h
    | cons b bs =>
      simp only [listLT]
      by_cases hab : a < b
      · simp only [if_pos hab, true_iff]
        exact List.Lex.rel hab
      · rw [if_neg hab]
        by_cases hba : b < a
        · simp only [if_pos hba, Bool.false_eq_true, false_iff]
          intro h
          cases h with
          | cons h2 => exact lt_irrefl a hba
          | rel h2 => exact hab h2
        · have heq : a = b := by
            rcases lt_trichotomy a b with h | h | h
            · exact absurd h hab
            · exact h
            · exact absurd h hba
          subst heq
          rw [if_neg hba, ih bs]
          constructor
          · intro h
            exact List.Lex.cons h
          · intro h
            cases h with
            | cons h2 => exact h2
            | rel h2 => exact absurd h2 hab

/-- The string comparison model agrees with the order on `String`. -/
theorem strLT_iff (s t : String) : strLT s t = true ↔ s < t := by
  rw [String.lt_iff_toList_lt]
  exact listLT_iff s.data t.data

/-- `matchLE` is transitive. -/
theorem matchLE_trans (a b c : SearchMatch)
    (h₁ : matchLE a b = true) (h₂ : matchLE b c = true) : matchLE a c = true := by
  simp only [matchLE, Bool.or_eq_true, Bool.and_eq_true, decide_eq_true_eq,
    strLT_iff] at *
  rcases h₁ with h₁ | ⟨h₁, h₁l⟩ <;> rcases h₂ with h₂ | ⟨h₂, h₂l⟩
  · exact Or.inl (lt_trans h₁ h₂)
  · exact Or.inl (h₂ ▸ h₁)
  · exact Or.inl (h₁ ▸ h₂)
  · exact Or.inr ⟨h₁.trans h₂, le_trans h₁l h₂l⟩

/-- `matchLE` is total. -/
theorem matchLE_total (a b : SearchMatch) :
    (matchLE a b || matchLE b a) = true := by
  simp only [matchLE, Bool.or_eq_true, Bool.and_eq_true, decide_eq_true_eq,
    strLT_iff]
  rcases lt_trichotomy a.file b.file with h | h | h
  · exact Or.inl (Or.inl h)
  · rcases Nat.le_total a.line b.line with hl | hl
    · exact Or.inl (Or.inr ⟨h, hl⟩)
    · exact Or.inr (Or.inr ⟨h.symm, hl⟩)
  · exact Or.inr (Or.inl h)

/-- The sorted match list is pairwise ordered by `matchLE`. -/
theorem sortMatches_pairwise (ms : List SearchMatch) :
    (sortMatches ms).Pairwise fun a b => matchLE a b = true := by
  haveI : IsTotal SearchMatch fun a b => matchLE a b = true :=
    ⟨fun a b => by
      rcases Bool.or_eq_true _ _ |>.mp (matchLE_total a b) with h | h
      · exact Or.inl h
      · exact Or.inr h⟩
  haveI : IsTrans SearchMatch fun a b => matchLE a b = true :=
    ⟨matchLE_trans⟩
  exact List.sorted_insertionSort _ ms

/-- Sorting neither adds nor removes matches. -/
theorem sortMatches_perm (ms : List SearchMatch) : (sortMatches ms).Perm ms :=
  List.perm_insertionSort _ ms

/-- Sorting preserves the number of matches. -/
theorem sortMatches_length (ms : List SearchMatch) :
    (sortMatches ms).length = ms.length :=
  (sortMatches_perm ms).length_eq

/-- Sorting preserves membership. -/
theorem sortMatches_mem (m : SearchMatch) (ms : List SearchMatch) :
    m ∈ sortMatches ms ↔ m ∈ ms :=
  (sortMatches_perm ms).mem_iff

/-! ## Lemmas: the line scanner -/

@[simp] theorem ctxDone_none : ctxDone none = false := rfl

@[simp] theorem ctxTick_none : ctxTick none = none := rfl

/-- The context is done exactly when its deadline counter is spent. -/
theorem ctxDone_iff (ctx : Option Nat) : ctxDone ctx = true ↔ ctx = some 0 := by
  cases ctx with
  | none => simp [ctxDone]
  | some n => cases n <;> simp [ctxDone]

@[simp] theorem lineBytes_nil : lineBytes [] = 0 := rfl

@[simp] theorem lineBytes_cons (l : String) (ls : List String) :
    lineBytes (l :: ls) = l.length + 1 + lineBytes ls := by
  simp [lineBytes, Nat.add_comm, Nat.add_assoc, Nat.add_left_comm]

/-- An uncancellable scan with the result cap not yet reached runs to
completion and appends exactly the pure per-file matches, counting
`len+1` bytes per line. -/
theorem scanLines_none (e : SearchEngine) (c : Nat) (p : String)
    (hcap : ¬(0 < e.config.maxResults ∧ e.config.maxResults ≤ c)) :
    ∀ (lines : List String) (ln : Nat) (buf : List String)
      (acc : List SearchMatch) (b : Nat),
    scanLines e c p lines ln buf acc b none =
      ⟨acc ++ newMatches e p lines ln buf, b + lineBytes lines, none, none⟩ := by
  intro lines
  induction lines with
  | nil => intro ln buf acc b; simp [scanLines, newMatches]
  | cons line rest ih =>
    intro ln buf acc b
    rw [scanLines]
    simp only [ctxDone_none, Bool.false_eq_true, if_false, ctxTick_none]
    rcases hm : lineMatchColumn e line with _ | col
    · rw [newMatches]
      simp only [hm]
      rw [ih]
      simp [Nat.add_assoc, Nat.add_comm, Nat.add_left_comm]
    · rw [newMatches]
      simp only [hm, if_neg hcap]
      rw [ih]
      simp [Nat.add_assoc, Nat.add_comm, Nat.add_left_comm]

/-- A scan that reports an error was cancelled, and its context is the
spent one. -/
theorem scanLines_err (e : SearchEngine) (c : Nat) (p : String) :
    ∀ (lines : List String) (ln : Nat) (buf : List String)
      (acc : List SearchMatch) (b : Nat) (ctx : Option Nat) (er : FileError),
    (scanLines e c p lines ln buf acc b ctx).err = some er →
    er = .cancelled ∧ (scanLines e c p lines ln buf acc b ctx).ctx = some 0 := by
  intro lines
  induction lines with
  | nil => intro ln buf acc b ctx er h; simp [scanLines] at h
  | cons line rest ih =>
    intro ln buf acc b ctx er h
    rw [scanLines] at h ⊢
    by_cases hd : ctxDone ctx = true
    · rw [if_pos hd] at h ⊢
      simp at h
      exact ⟨h.symm, (ctxDone_iff ctx).mp hd⟩
    · rw [if_neg hd] at h ⊢
      rcases hm : lineMatchColumn e line with _ | col
      · simp only [hm] at h ⊢
        exact ih _ _ _ _ _ _ h
      · simp only [hm] at h ⊢
        by_cases hcap : 0 < e.config.maxResults ∧ e.config.maxResults ≤ c
        · rw [if_pos hcap] at h ⊢
          simp at h
        · rw [if_neg hcap] at h ⊢
          exact ih _ _ _ _ _ _ h

/-- A deadline-context scan that completes agrees with the uncancellable
scan on matches and bytes, and leaves a live deadline counter. -/
theorem scanLines_some_complete (e : SearchEngine) (c : Nat) (p : String) :
    ∀ (lines : List String) (ln : Nat) (buf : List String)
      (acc : List SearchMatch) (b : Nat) (k : Nat),
    (scanLines e c p lines ln buf acc b (some k)).err = none →
    (scanLines e c p lines ln buf acc b (some k)).ms =
      (scanLines e c p lines ln buf acc b none).ms ∧
    (scanLines e c p lines ln buf acc b (some k)).bytes =
      (scanLines e c p lines ln buf acc b none).bytes ∧
    ∃ j, (scanLines e c p lines ln buf acc b (some k)).ctx = some j := by
  intro lines
  induction lines with
  | nil => intro ln buf acc b k _; exact ⟨rfl, rfl, k, rfl⟩
  | cons line rest ih =>
    intro ln buf acc b k h
    cases k with
    | zero =>
      rw [scanLines] at h
      simp [ctxDone] at h
    | succ j =>
      have hd : ctxDone (some (j + 1)) = false := rfl
      have ht : ctxTick (some (j + 1)) = some j := rfl
      simp only [scanLines, hd, Bool.false_eq_true, if_false, ctxDone_none,
        ctxTick_none, ht] at h ⊢
      rcases hm : lineMatchColumn e line with _ | col
      · simp only [hm] at h ⊢
        exact ih _ _ _ _ _ h
      · simp only [hm] at h ⊢
        by_cases hcap : 0 < e.config.maxResults ∧ e.config.maxResults ≤ c
        · simp only [if_pos hcap] at h ⊢
          exact ⟨by trivial, by trivial, j, rfl⟩
        · simp only [if_neg hcap] at h ⊢
          exact ih _ _ _ _ _ h

/-- When no line ever matches, a scan accumulates nothing. -/
theorem scanLines_nomatch (e : SearchEngine) (c : Nat) (p : String)
    (hm : ∀ line, lineMatchColumn e line = none) :
    ∀ (lines : List String) (ln : Nat) (buf : List String)
      (acc : List SearchMatch) (b : Nat) (ctx : Option Nat),
    (scanLines e c p lines ln buf acc b ctx).ms = acc := by
  intro lines
  induction lines with
  | nil => intro ln buf acc b ctx; rfl
  | cons line rest ih =>
    intro ln buf acc b ctx
    rw [scanLines]
    by_cases hd : ctxDone ctx = true
    · rw [if_pos hd]
    · rw [if_neg hd]
      simp only [hm line]
      exact ih _ _ _ _ _

/-! ## Lemmas: match emission and the worker loop -/

/-- Without a result cap, emission forwards every match and counts it. -/
theorem emitMatches_zero :
    ∀ (ms : List SearchMatch) (count : Nat),
    emitMatches 0 ms count = (ms, count + ms.length, false) := by
  intro ms
  induction ms with
  | nil => intro count; rfl
  | cons m rest ih =>
    intro count
    rw [emitMatches]
    simp only [Nat.lt_irrefl, false_and, if_false, ih]
    simp [Nat.add_assoc, Nat.add_comm, Nat.add_left_comm]

/-- With a positive cap not yet reached, emission forwards a prefix of
the matches: everything up to the cap, stopping exactly when the shared
count reaches it. -/
theorem emitMatches_pos (N : Nat) (hN : 0 < N) :
    ∀ (ms : List SearchMatch) (count : Nat), count < N →
    (emitMatches N ms count).1 = ms.take (N - count) ∧
    (emitMatches N ms count).2.1 = count + min ms.length (N - count) ∧
    ((emitMatches N ms count).2.2 = true ↔ N ≤ count + ms.length) := by
  intro ms
  induction ms with
  | nil =>
    intro count hc
    refine ⟨by simp [emitMatches], by simp [emitMatches], ?_⟩
    simp only [emitMatches, List.length_nil, Nat.add_zero]
    constructor
    · intro h; cases h
    · intro h; omega
  | cons m rest ih =>
    intro count hc
    simp only [emitMatches, List.length_cons]
    by_cases hhit : 0 < N ∧ N ≤ count + 1
    · simp only [if_pos hhit]
      have h1 : N - count = 1 := by omega
      refine ⟨by rw [h1]; simp, by omega, ?_⟩
      constructor
      · intro _; omega
      · intro _; trivial
    · simp only [if_neg hhit]
      have hc₂ : count + 1 < N := by omega
      obtain ⟨ih1, ih2, ih3⟩ := ih (count + 1) hc₂
      refine ⟨?_, ?_, ?_⟩
      · have h2 : N - count = (N - (count + 1)) + 1 := by omega
        rw [h2, List.take_succ_cons]
        simp only [ih1]
      · simp only [ih2]
        omega
      · simp only [ih3]
        omega

/-- Emission never invents matches. -/
theorem emitMatches_subset (N : Nat) :
    ∀ (ms : List SearchMatch) (count : Nat) (m : SearchMatch),
    m ∈ (emitMatches N ms count).1 → m ∈ ms := by
  intro ms
  induction ms with
  | nil => intro count m h; exact absurd h (by simp [emitMatches])
  | cons m₀ rest ih =>
    intro count m h
    rw [emitMatches] at h
    by_cases hhit : 0 < N ∧ N ≤ count + 1
    · rw [if_pos hhit] at h
      simp at h
      simp [h]
    · rw [if_neg hhit] at h
      simp at h
      rcases h with h | h
      · simp [h]
      · exact List.mem_cons_of_mem _ (ih _ _ h)

/-- A worker facing a spent context does nothing. -/
theorem runFiles_done (e : SearchEngine) (files : List FileInfo) (c : Nat)
    (ctx : Option Nat) (h : ctxDone ctx = true) :
    runFiles e files c ctx = ⟨[], 0, 0, c, ctx⟩ := by
  cases files with
  | nil => rfl
  | cons f rest => rw [runFiles, if_pos h]

/-! ## Lemmas: the walker delivers only classifier-approved files -/

mutual

/-- Every file delivered from one entry passed the classifier. -/
theorem walkEntry_skipFalse (config : SearchConfig) (dirPath : String) :
    ∀ (en : FSEntry) (f : FileInfo), f ∈ walkEntry config dirPath en →
      shouldSkipFile config false f = false
  | .file name content readErr, f, hf => by
    rw [walkEntry] at hf
    by_cases hs : shouldSkipFile config false
        ⟨joinPath dirPath name, name, content, readErr⟩ = true
    · rw [if_pos hs] at hf
      cases hf
    · rw [if_neg hs] at hf
      rcases List.mem_singleton.mp hf with rfl
      exact Bool.not_eq_true _ ▸ hs
  | .dir name entries, f, hf => by
    rw [walkEntry] at hf
    by_cases hh : (!config.includeHidden && hasPrefixGo name ".") = true
    · rw [if_pos hh] at hf
      cases hf
    · rw [if_neg hh] at hf
      exact walkList_skipFalse config (joinPath dirPath name) entries f hf

/-- Every file delivered from an entry list passed the classifier. -/
theorem walkList_skipFalse (config : SearchConfig) (dirPath : String) :
    ∀ (es : List FSEntry) (f : FileInfo), f ∈ walkList config dirPath es →
      shouldSkipFile config false f = false
  | [], _, hf => by cases hf
  | e :: es, f, hf => by
    rw [walkList] at hf
    rcases List.mem_append.mp hf with hf | hf
    · exact walkEntry_skipFalse config dirPath e f hf
    · exact walkList_skipFalse config dirPath es f hf

end

/-- A classifier-approved file is not classified binary. -/
theorem skipFalse_not_binary (config : SearchConfig) (f : FileInfo)
    (h : shouldSkipFile config false f = false) : isBinaryFile f = false := by
  by_cases hb : isBinaryFile f = true
  · exfalso
    simp only [shouldSkipFile, hb] at h
    split_ifs at h
  · rw [Bool.not_eq_true] at hb
    exact hb

/-- A file that is not classified binary is readable. -/
theorem not_binary_readable (f : FileInfo) (h : isBinaryFile f = false) :
    f.readErr = false := by
  by_cases hr : f.readErr = true
  · exfalso
    simp only [isBinaryFile, hr] at h
    split_ifs at h
  · rw [Bool.not_eq_true] at hr
    exact hr

/-- Every walked file is readable. -/
theorem walkList_readable (config : SearchConfig) (dirPath : String)
    (es : List FSEntry) (f : FileInfo) (hf : f ∈ walkList config dirPath es) :
    f.readErr = false :=
  not_binary_readable f
    (skipFalse_not_binary config f (walkList_skipFalse config dirPath es f hf))

/-! ## Lemmas: the worker loop on the three regimes -/

/-- Number of matching lines of a fully scanned file, as a list length. -/
theorem newMatches_length (e : SearchEngine) (p : String) :
    ∀ (lines : List String) (ln : Nat) (buf : List String),
    (newMatches e p lines ln buf).length =
      (lines.filter fun l => (lineMatchColumn e l).isSome).length := by
  intro lines
  induction lines with
  | nil => intro ln buf; rfl
  | cons line rest ih =>
    intro ln buf
    rw [newMatches, List.filter]
    rcases hm : lineMatchColumn e line with _ | col <;>
      simp only [hm, Option.isSome_none, Option.isSome_some, List.length_cons, ih]

/-- With no result cap and an uncancellable context, the run scans every
readable file completely, in order. -/
theorem runFiles_none (e : SearchEngine) (hmax : e.config.maxResults = 0) :
    ∀ (files : List FileInfo) (c : Nat),
    (∀ f ∈ files, f.readErr = false) →
    runFiles e files c none =
      ⟨files.flatMap (fileMatches e), files.length,
       (files.map fileScanBytes).sum,
       c + (files.map fun f => (fileMatches e f).length).sum, none⟩ := by
  intro files
  induction files with
  | nil => intro c _; simp [runFiles]
  | cons f rest ih =>
    intro c hr
    have hrf : f.readErr = false := hr f (List.mem_cons_self f rest)
    have hcap : ¬(0 < e.config.maxResults ∧ e.config.maxResults ≤ c) := by
      rw [hmax]; omega
    rw [runFiles]
    simp only [ctxDone_none, Bool.false_eq_true, if_false]
    rw [searchFileGo, if_neg (by simp [hrf])]
    rw [scanLines_none e c f.path hcap]
    simp only [hmax, emitMatches_zero, List.nil_append, Nat.zero_add]
    rw [show newMatches e f.path (splitLines f.content) 1 [] = fileMatches e f from rfl]
    rw [show lineBytes (splitLines f.content) = fileScanBytes f from rfl]
    simp only [Bool.false_eq_true, if_false]
    rw [ih (c + (fileMatches e f).length) fun g hg => hr g (List.mem_cons_of_mem f hg)]
    simp only [List.flatMap_cons, List.map_cons, List.sum_cons, List.length_cons,
      RunOut.mk.injEq]
    refine ⟨by trivial, by trivial, by omega, by omega, by trivial⟩

/-- With a positive cap not yet reached and an uncancellable context,
the run delivers exactly the capped number of matches. -/
theorem runFiles_capped (e : SearchEngine) (N : Nat)
    (hmax : e.config.maxResults = N) (hN : 0 < N) :
    ∀ (files : List FileInfo) (c : Nat), c < N →
    (∀ f ∈ files, f.readErr = false) →
    (runFiles e files c none).ms.length =
      min (N - c) ((files.map fun f => (fileMatches e f).length).sum) := by
  intro files
  induction files with
  | nil => intro c hc _; simp [runFiles]
  | cons f rest ih =>
    intro c hc hr
    have hrf : f.readErr = false := hr f (List.mem_cons_self f rest)
    have hcap : ¬(0 < e.config.maxResults ∧ e.config.maxResults ≤ c) := by
      rw [hmax]; omega
    rw [runFiles]
    simp only [ctxDone_none, Bool.false_eq_true, if_false]
    rw [searchFileGo, if_neg (by simp [hrf])]
    rw [scanLines_none e c f.path hcap]
    simp only [List.nil_append, Nat.zero_add, hmax]
    rw [show newMatches e f.path (splitLines f.content) 1 [] = fileMatches e f from rfl]
    obtain ⟨he1, he2, he3⟩ := emitMatches_pos N hN (fileMatches e f) c hc
    by_cases hhit : (emitMatches N (fileMatches e f) c).2.2 = true
    · rw [if_pos hhit]
      have hle : N ≤ c + (fileMatches e f).length := he3.mp hhit
      simp only [he1, List.length_take, List.map_cons, List.sum_cons]
      omega
    · rw [if_neg hhit]
      have hlt : ¬ N ≤ c + (fileMatches e f).length := fun hcon => hhit (he3.mpr hcon)
      have hc2 : c + (fileMatches e f).length < N := by omega
      have hcm : min ((fileMatches e f).length) (N - c) = (fileMatches e f).length := by
        omega
      rw [List.length_append, he1, List.length_take]
      rw [he2, hcm]
      rw [ih (c + (fileMatches e f).length) hc2
        fun g hg => hr g (List.mem_cons_of_mem f hg)]
      simp only [List.map_cons, List.sum_cons]
      omega

/-- With no result cap, a deadline context yields exactly the full
scans of a prefix of the queued files; the file interrupted mid-scan
(if any) contributes neither matches nor statistics. -/
theorem runFiles_cancel (e : SearchEngine) (hmax : e.config.maxResults = 0) :
    ∀ (files : List FileInfo) (c k : Nat),
    (∀ f ∈ files, f.readErr = false) →
    ∃ n ≤ files.length,
      (runFiles e files c (some k)).ms = (files.take n).flatMap (fileMatches e) ∧
      (runFiles e files c (some k)).filesScanned = n ∧
      (runFiles e files c (some k)).bytesScanned =
        ((files.take n).map fileScanBytes).sum := by
  intro files
  induction files with
  | nil => intro c k _; exact ⟨0, by simp, by simp [runFiles], rfl, rfl⟩
  | cons f rest ih =>
    intro c k hr
    have hrf : f.readErr = false := hr f (List.mem_cons_self f rest)
    have hcap : ¬(0 < e.config.maxResults ∧ e.config.maxResults ≤ c) := by
      rw [hmax]; omega
    cases k with
    | zero =>
      rw [runFiles_done e _ c (some 0) rfl]
      exact ⟨0, by simp, by simp, rfl, rfl⟩
    | succ j =>
      have hd : ctxDone (some (j + 1)) = false := rfl
      rw [runFiles]
      rw [if_neg (by simp [hd])]
      rw [searchFileGo, if_neg (by simp [hrf])]
      rcases herr : (scanLines e c f.path (splitLines f.content) 1 [] [] 0
          (some (j + 1))).err with _ | er
      · obtain ⟨hms, hbytes, j₂, hctx⟩ :=
          scanLines_some_complete e c f.path (splitLines f.content) 1 [] [] 0 (j + 1) herr
        rw [scanLines_none e c f.path hcap] at hms hbytes
        simp only [List.nil_append, Nat.zero_add] at hms hbytes
        simp only [herr]
        rw [hms, hbytes, hctx]
        rw [show newMatches e f.path (splitLines f.content) 1 [] = fileMatches e f from rfl]
        rw [show lineBytes (splitLines f.content) = fileScanBytes f from rfl]
        simp only [hmax, emitMatches_zero]
        simp only [Bool.false_eq_true, if_false]
        obtain ⟨n, hn, h1, h2, h3⟩ :=
          ih (c + (fileMatches e f).length) j₂
            fun g hg => hr g (List.mem_cons_of_mem f hg)
        refine ⟨n + 1, by simp; omega, ?_, ?_, ?_⟩
        · simp only [List.take_succ_cons, List.flatMap_cons, h1]
        · simp only [h2]
        · simp only [List.take_succ_cons, List.map_cons, List.sum_cons, h3]
          omega
      · obtain ⟨-, hctx⟩ := scanLines_err e c f.path (splitLines f.content) 1 [] [] 0
          (some (j + 1)) er herr
        simp only [herr]
        rw [hctx, runFiles_done e rest c (some 0) rfl]
        exact ⟨0, by simp, rfl, rfl, rfl⟩

/-- Every delivered match was produced by scanning some queued file. -/
theorem runFiles_mem (e : SearchEngine) :
    ∀ (files : List FileInfo) (c : Nat) (ctx : Option Nat) (m : SearchMatch),
    m ∈ (runFiles e files c ctx).ms →
    ∃ f ∈ files, ∃ (c₂ : Nat) (ctx₂ : Option Nat),
      m ∈ (searchFileGo e c₂ f ctx₂).ms := by
  intro files
  induction files with
  | nil => intro c ctx m hm; cases hm
  | cons f rest ih =>
    intro c ctx m hm
    rw [runFiles] at hm
    by_cases hd : ctxDone ctx = true
    · rw [if_pos hd] at hm
      cases hm
    · rw [if_neg hd] at hm
      rcases herr : (searchFileGo e c f ctx).err with _ | er
      · simp only [herr] at hm
        by_cases hhit : (emitMatches e.config.maxResults (searchFileGo e c f ctx).ms c).2.2 = true
        · rw [if_pos hhit] at hm
          exact ⟨f, List.mem_cons_self f rest, c, ctx,
            emitMatches_subset _ _ _ _ hm⟩
        · rw [if_neg hhit] at hm
          rcases List.mem_append.mp hm with hm | hm
          · exact ⟨f, List.mem_cons_self f rest, c, ctx,
              emitMatches_subset _ _ _ _ hm⟩
          · obtain ⟨g, hg, c₂, ctx₂, hmem⟩ := ih _ _ _ hm
            exact ⟨g, List.mem_cons_of_mem f hg, c₂, ctx₂, hmem⟩
      · simp only [herr] at hm
        obtain ⟨g, hg, c₂, ctx₂, hmem⟩ := ih _ _ _ hm
        exact ⟨g, List.mem_cons_of_mem f hg, c₂, ctx₂, hmem⟩

/-! ## Lemmas: the per-match context property (for C8) -/

/-- The context slice a match must carry, relative to the full line
list of its file: the lines immediately preceding the matched line,
clipped to the start of the file and to the configured count. -/
def matchProp (K : Nat) (allLines : List String) (p : String) (m : SearchMatch) : Prop :=
  m.file = p ∧ 1 ≤ m.line ∧ m.line - 1 ≤ allLines.length ∧
  m.context = (allLines.take (m.line - 1)).drop (m.line - 1 - K) ∧
  m.context.length = min K (m.line - 1)

/-- Every match accumulated by the scanner satisfies the context
property, whatever the context, cap, and prior accumulator are. -/
theorem scanLines_prop (e : SearchEngine) (c : Nat) (p : String)
    (allLines : List String) :
    ∀ (lines pre : List String) (acc : List SearchMatch) (b : Nat) (ctx : Option Nat),
    allLines = pre ++ lines →
    (∀ m ∈ acc, matchProp e.config.contextLines allLines p m) →
    ∀ m ∈ (scanLines e c p lines (pre.length + 1)
        (if 0 < e.config.contextLines then pre else []) acc b ctx).ms,
      matchProp e.config.contextLines allLines p m := by
  intro lines
  induction lines with
  | nil => intro pre acc b ctx _ hacc m hm; exact hacc m hm
  | cons line rest ih =>
    intro pre acc b ctx hall hacc m hm
    simp only [scanLines] at hm
    by_cases hd : ctxDone ctx = true
    · rw [if_pos hd] at hm
      exact hacc m hm
    · rw [if_neg hd] at hm
      have hall₂ : allLines = (pre ++ [line]) ++ rest := by
        rw [hall, List.append_assoc]; rfl
      have hlen : (pre ++ [line]).length = pre.length + 1 := by simp
      have hpre : allLines.take pre.length = pre := by
        rw [hall]; exact List.take_left pre (line :: rest)
      have hplen : pre.length ≤ allLines.length := by
        rw [hall]; simp
      by_cases hK : 0 < e.config.contextLines
      · simp only [if_pos hK] at hm ⊢
        rcases hmcol : lineMatchColumn e line with _ | col
        · simp only [hmcol] at hm
          have := ih (pre ++ [line]) acc (b + line.length + 1) (ctxTick ctx) hall₂ hacc m
          rw [hlen] at this
          simp only [if_pos hK] at this
          exact this hm
        · simp only [hmcol] at hm
          by_cases hcap : 0 < e.config.maxResults ∧ e.config.maxResults ≤ c
          · rw [if_pos hcap] at hm
            exact hacc m hm
          · rw [if_neg hcap] at hm
            have hm₀ : matchProp e.config.contextLines allLines p
                ⟨p, pre.length + 1, col, line,
                  if 0 < e.config.contextLines ∧ 0 < (pre ++ [line]).length then
                    (pre ++ [line]).dropLast.drop
                      ((pre ++ [line]).length - e.config.contextLines - 1)
                  else []⟩ := by
              have hcnd : 0 < e.config.contextLines ∧ 0 < (pre ++ [line]).length := by
                constructor
                · exact hK
                · simp
              rw [if_pos hcnd]
              refine ⟨rfl, by exact Nat.succ_le_succ (Nat.zero_le _), ?_, ?_, ?_⟩
              · simp only [Nat.add_sub_cancel]
                exact hplen
              · simp only [Nat.add_sub_cancel, List.dropLast_concat, hlen, hpre]
                have harith : pre.length + 1 - e.config.contextLines - 1 =
                    pre.length - e.config.contextLines := by omega
                rw [harith]
              · simp only [Nat.add_sub_cancel, List.dropLast_concat, hlen]
                have harith : pre.length + 1 - e.config.contextLines - 1 =
                    pre.length - e.config.contextLines := by omega
                rw [harith, List.length_drop]
                omega
            have hacc₂ : ∀ m₂ ∈ acc ++ [⟨p, pre.length + 1, col, line,
                if 0 < e.config.contextLines ∧ 0 < (pre ++ [line]).length then
                  (pre ++ [line]).dropLast.drop
                    ((pre ++ [line]).length - e.config.contextLines - 1)
                else []⟩], matchProp e.config.contextLines allLines p m₂ := by
              intro m₂ hm₂
              rcases List.mem_append.mp hm₂ with hm₂ | hm₂
              · exact hacc m₂ hm₂
              · rcases List.mem_singleton.mp hm₂ with rfl
                exact hm₀
            have := ih (pre ++ [line]) _ (b + line.length + 1) (ctxTick ctx) hall₂ hacc₂ m
            simp only [if_pos hK] at this
            rw [show pre.length + 1 + 1 = (pre ++ [line]).length + 1 from by simp] at hm
            exact this hm
      · simp only [if_neg hK, ite_self] at hm ⊢
        have hK0 : e.config.contextLines = 0 := by omega
        rcases hmcol : lineMatchColumn e line with _ | col
        · simp only [hmcol] at hm
          have := ih (pre ++ [line]) acc (b + line.length + 1) (ctxTick ctx) hall₂ hacc m
          rw [hlen] at this
          simp only [if_neg hK, ite_self] at this
          exact this hm
        · simp only [hmcol] at hm
          by_cases hcap : 0 < e.config.maxResults ∧ e.config.maxResults ≤ c
          · rw [if_pos hcap] at hm
            exact hacc m hm
          · rw [if_neg hcap] at hm
            have hcnd : ¬(0 < e.config.contextLines ∧
                0 < (if 0 < e.config.contextLines then
                  (if 0 < e.config.contextLines then pre else []) ++ [line]
                else if 0 < e.config.contextLines then pre else []).length) := by
              intro hcon
              exact hK hcon.1
            have hm₀ : matchProp e.config.contextLines allLines p
                ⟨p, pre.length + 1, col, line, []⟩ := by
              refine ⟨rfl, by exact Nat.succ_le_succ (Nat.zero_le _), ?_, ?_, ?_⟩
              · simp only [Nat.add_sub_cancel]
                exact hplen
              · simp only [Nat.add_sub_cancel, hK0, Nat.sub_zero, hpre]
                have : pre.length ≤ pre.length := le_refl _
                symm
                exact List.drop_eq_nil_of_le (by simp)
              · simp [hK0]
            have hacc₂ : ∀ m₂ ∈ acc ++ [(⟨p, pre.length + 1, col, line, []⟩ : SearchMatch)],
                matchProp e.config.contextLines allLines p m₂ := by
              intro m₂ hm₂
              rcases List.mem_append.mp hm₂ with hm₂ | hm₂
              · exact hacc m₂ hm₂
              · rcases List.mem_singleton.mp hm₂ with rfl
                exact hm₀
            have := ih (pre ++ [line]) _ (b + line.length + 1) (ctxTick ctx) hall₂ hacc₂ m
            simp only [if_neg hK, ite_self] at this
            rw [show pre.length + 1 + 1 = (pre ++ [line]).length + 1 from by simp] at hm
            rw [if_neg (by simp :
              ¬(0 < e.config.contextLines ∧ 0 < ([] : List String).length))] at hm
            exact this hm

/-- Every match of one scanned file satisfies the context property of
that file. -/
theorem searchFileGo_prop (e : SearchEngine) (c : Nat) (f : FileInfo)
    (ctx : Option Nat) (m : SearchMatch) (hm : m ∈ (searchFileGo e c f ctx).ms) :
    matchProp e.config.contextLines (splitLines f.content) f.path m := by
  rw [searchFileGo] at hm
  by_cases hr : f.readErr = true
  · rw [if_pos hr] at hm
    cases hm
  · rw [if_neg hr] at hm
    have := scanLines_prop e c f.path (splitLines f.content) (splitLines f.content)
      [] [] 0 ctx (by simp) (by intro m₂ hm₂; cases hm₂) m
    simp only [List.length_nil, Nat.zero_add, ite_self] at this
    exact this hm

/-! ## Lemmas: the walker against the spec-side file collectors -/

/-- Without a glob filter, the classifier skips exactly the hidden and
the binary files (when hidden entries are excluded). -/
theorem shouldSkip_noglob (config : SearchConfig) (hh : config.includeHidden = false)
    (hg : config.filePattern = "") (f : FileInfo) :
    shouldSkipFile config false f = (hasPrefixGo f.name "." || isBinaryFile f) := by
  simp only [shouldSkipFile, hh, hg, Bool.not_false, Bool.true_and]
  by_cases h1 : hasPrefixGo f.name "." = true <;>
    by_cases h2 : isBinaryFile f = true <;>
      simp [h1, h2]

mutual

/-- With hidden entries excluded and no glob filter, the walker's
delivery from one entry is the hidden-pruned collection filtered down
to non-hidden, non-binary files. -/
theorem walkEntry_pruned (config : SearchConfig) (hh : config.includeHidden = false)
    (hg : config.filePattern = "") (dirPath : String) :
    ∀ en : FSEntry, walkEntry config dirPath en =
      (prunedFilesEntry dirPath en).filter fun f =>
        !(hasPrefixGo f.name ".") && !isBinaryFile f
  | .file name content readErr => by
    rw [walkEntry, prunedFilesEntry]
    rw [shouldSkip_noglob config hh hg]
    by_cases h1 : hasPrefixGo name "." = true
    all_goals by_cases h2 : isBinaryFile ⟨joinPath dirPath name, name, content, readErr⟩ = true
    all_goals simp [h1, h2, List.filter]
  | .dir name entries => by
    rw [walkEntry, prunedFilesEntry, hh]
    simp only [Bool.not_false, Bool.true_and]
    by_cases hs : hasPrefixGo name "." = true
    · rw [if_pos hs, if_pos hs]
      rfl
    · rw [if_neg hs, if_neg hs]
      exact walkList_pruned config hh hg (joinPath dirPath name) entries

/-- List form of `walkEntry_pruned`. -/
theorem walkList_pruned (config : SearchConfig) (hh : config.includeHidden = false)
    (hg : config.filePattern = "") (dirPath : String) :
    ∀ es : List FSEntry, walkList config dirPath es =
      (prunedFilesList dirPath es).filter fun f =>
        !(hasPrefixGo f.name ".") && !isBinaryFile f
  | [] => rfl
  | e :: es => by
    rw [walkList, prunedFilesList, List.filter_append]
    rw [walkEntry_pruned config hh hg dirPath e, walkList_pruned config hh hg dirPath es]

end

/-- The matches of one full file scan are one per matching line. -/
theorem fileMatches_length (e : SearchEngine) (f : FileInfo) :
    (fileMatches e f).length = fileMatchCount e f :=
  newMatches_length e f.path (splitLines f.content) 1 []

/-! ## Lemmas: literal patterns through the regex compiler (for C9) -/

/-- A rune of a literal pattern is not a metacharacter. -/
theorem isLiteral_mem (pattern : String) (h : isLiteralPattern pattern = true)
    (c : Char) (hc : c ∈ pattern.data) : c ∉ metaChars := by
  intro hmc
  simp only [isLiteralPattern, Bool.not_eq_true'] at h
  rw [List.any_eq_false] at h
  exact h c hmc (by simpa using hc)

/-- The atom parser accepts a non-metacharacter rune as itself. -/
theorem parseAtom_lit (fuel : Nat) (c : Char) (rest : List Char)
    (hc : c ∉ metaChars) :
    parseAtom (fuel + 1) (c :: rest) = some (Regex.char c, rest) := by
  have h1 : ¬(c = '(') := fun he => hc (by rw [he]; decide)
  have h2 : ¬(c = '[') := fun he => hc (by rw [he]; decide)
  have h3 : ¬(c = '\\') := fun he => hc (by rw [he]; decide)
  have h4 : ¬(c = '.') := fun he => hc (by rw [he]; decide)
  simp only [parseAtom]
  simp only [if_neg h1, if_neg h2, if_neg h3, if_neg h4, if_neg hc]

/-- The repetition parser forwards a non-metacharacter rune unchanged
when no postfix operator follows. -/
theorem parseRep_lit (fuel : Nat) (c : Char) (rest : List Char)
    (hc : c ∉ metaChars) (hrest : ∀ d ∈ rest, d ∉ metaChars) :
    parseRep (fuel + 2) (c :: rest) = some (Regex.char c, rest) := by
  simp only [parseRep, parseAtom_lit fuel c rest hc]
  cases rest with
  | nil => rfl
  | cons d rest₂ =>
    have hd := hrest d (List.mem_cons_self _ _)
    have h1 : ¬(d = '*') := fun he => hd (by rw [he]; decide)
    have h2 : ¬(d = '+') := fun he => hd (by rw [he]; decide)
    have h3 : ¬(d = '?') := fun he => hd (by rw [he]; decide)
    simp only [if_neg h1, if_neg h2, if_neg h3]

/-- One controlled unfolding of the concatenation parser on a rune that
starts an atom. -/
theorem parseConcat_cons (fuel : Nat) (c : Char) (rest : List Char)
    (h : ¬(c = '|' ∨ c = ')')) :
    parseConcat (fuel + 1) (c :: rest) =
      match parseRep fuel (c :: rest) with
      | none => none
      | some (r, rest₂) =>
        match parseConcat fuel rest₂ with
        | some (r₂, rest₃) => some (Regex.seq r r₂, rest₃)
        | none => none := by
  rw [parseConcat]
  exact if_neg h

/-- The concatenation parser turns a metacharacter-free rune list into
the literal rune sequence, consuming all input. -/
theorem parseConcat_lit :
    ∀ (cs : List Char), (∀ d ∈ cs, d ∉ metaChars) →
    ∀ (fuel : Nat), cs.length + 2 ≤ fuel →
    parseConcat fuel cs = some (charSeq cs, []) := by
  intro cs
  induction cs with
  | nil =>
    intro _ fuel hf
    obtain ⟨g, rfl⟩ : ∃ g, fuel = g + 1 := ⟨fuel - 1, by omega⟩
    rfl
  | cons c rest ih =>
    intro hlit fuel hf
    obtain ⟨g₃, rfl⟩ : ∃ g₃, fuel = g₃ + 3 := ⟨fuel - 3, by simp at hf; omega⟩
    have hc := hlit c (List.mem_cons_self _ _)
    have hrest : ∀ d ∈ rest, d ∉ metaChars :=
      fun d hd => hlit d (List.mem_cons_of_mem _ hd)
    have h1 : ¬(c = '|' ∨ c = ')') := by
      rintro (he | he) <;> exact hc (by rw [he]; decide)
    rw [show g₃ + 3 = (g₃ + 2) + 1 from rfl, parseConcat_cons (g₃ + 2) c rest h1]
    rw [parseRep_lit g₃ c rest hc hrest]
    have ihr := ih hrest (g₃ + 2) (by simp at hf; omega)
    simp only [ihr]
    rfl

/-- The alternation parser forwards a concatenation that consumed the
whole input. -/
theorem parseAlt_eval (fuel : Nat) (cs : List Char) (r : Regex)
    (h : parseConcat fuel cs = some (r, [])) :
    parseAlt (fuel + 1) cs = some (r, []) := by
  rw [parseAlt, h]

/-- The alternation parser on a metacharacter-free rune list. -/
theorem parseAlt_lit (cs : List Char) (hlit : ∀ d ∈ cs, d ∉ metaChars)
    (fuel : Nat) (hf : cs.length + 3 ≤ fuel) :
    parseAlt fuel cs = some (charSeq cs, []) := by
  obtain ⟨g, rfl⟩ : ∃ g, fuel = g + 1 := ⟨fuel - 1, by omega⟩
  exact parseAlt_eval g cs (charSeq cs) (parseConcat_lit cs hlit g (by omega))

/-- The whole-body compiler on a metacharacter-free rune list. -/
theorem compileBody_lit (cs : List Char) (hlit : ∀ d ∈ cs, d ∉ metaChars) :
    compileBody cs = some (charSeq cs) := by
  simp only [compileBody, parseAlt_lit cs hlit (4 * cs.length + 8) (by omega)]

/-- Compiling a literal pattern as written yields the case-sensitive
literal rune sequence. -/
theorem regexpCompile_lit (p : String) (h : isLiteralPattern p = true) :
    regexpCompile p = some (false, charSeq p.data) := by
  have hlit : ∀ d ∈ p.data, d ∉ metaChars := fun d hd => isLiteral_mem p h d hd
  rw [regexpCompile, if_neg ?hflag]
  case hflag =>
    intro htake
    have hmem : '(' ∈ p.data :=
      List.mem_of_mem_take (l := p.data) (n := 4) (by rw [htake]; decide)
    exact hlit '(' hmem (by decide)
  rw [compileBody_lit p.data hlit]
  rfl

/-- Compiling a literal pattern under the `(?i)` prefix yields the
case-folding literal rune sequence. -/
theorem regexpCompile_ci_lit (p : String) (h : isLiteralPattern p = true) :
    regexpCompile ("(?i)" ++ p) = some (true, charSeq p.data) := by
  have hlit : ∀ d ∈ p.data, d ∉ metaChars := fun d hd => isLiteral_mem p h d hd
  have hdata : ("(?i)" ++ p).data = '(' :: '?' :: 'i' :: ')' :: p.data := rfl
  rw [regexpCompile, hdata]
  have htake : List.take 4 ('(' :: '?' :: 'i' :: ')' :: p.data) = ['(', '?', 'i', ')'] := rfl
  rw [if_pos htake]
  rw [show ('(' :: '?' :: 'i' :: ')' :: p.data).drop 4 = p.data from rfl]
  rw [compileBody_lit p.data hlit]
  rfl

/-! ## Lemmas: derivative matching of literal rune sequences -/

/-- Prefix matching distributes over alternation. -/
theorem matchesAtStart_alt (ci : Bool) :
    ∀ (s : List Char) (r₁ r₂ : Regex),
    matchesAtStart ci (.alt r₁ r₂) s =
      (matchesAtStart ci r₁ s || matchesAtStart ci r₂ s) := by
  intro s
  induction s with
  | nil => intro r₁ r₂; rfl
  | cons c s ih =>
    intro r₁ r₂
    simp only [matchesAtStart, deriv, nullable, ih]
    cases nullable r₁ <;> cases nullable r₂ <;>
      cases matchesAtStart ci (deriv ci r₁ c) s <;>
        cases matchesAtStart ci (deriv ci r₂ c) s <;> rfl

/-- Nothing matches a sequence headed by the empty regex. -/
theorem matchesAtStart_seq_empty (ci : Bool) :
    ∀ (s : List Char) (r : Regex),
    matchesAtStart ci (.seq .emptyR r) s = false := by
  intro s
  induction s with
  | nil => intro r; rfl
  | cons c s ih =>
    intro r
    simp only [matchesAtStart, deriv, nullable]
    simp [ih]

/-- A leading epsilon in a sequence is transparent. -/
theorem matchesAtStart_seq_eps (ci : Bool) :
    ∀ (s : List Char) (r : Regex),
    matchesAtStart ci (.seq .epsilon r) s = matchesAtStart ci r s := by
  intro s
  induction s with
  | nil => intro r; simp [matchesAtStart, nullable]
  | cons c s _ =>
    intro r
    simp only [matchesAtStart, deriv, nullable, if_true, Bool.true_and]
    rw [matchesAtStart_alt, matchesAtStart_seq_empty]
    simp

/-- A literal rune sequence matches a prefix exactly when it is a
prefix under case folding. -/
theorem matchesAtStart_charSeq (ci : Bool) :
    ∀ (cs s : List Char),
    matchesAtStart ci (charSeq cs) s =
      (cs.map (foldCase ci)).isPrefixOf (s.map (foldCase ci)) := by
  intro cs
  induction cs with
  | nil =>
    intro s
    cases s <;> simp [charSeq, matchesAtStart, nullable, List.isPrefixOf]
  | cons c cs ih =>
    intro s
    cases s with
    | nil => simp [charSeq, matchesAtStart, nullable, List.isPrefixOf]
    | cons a s =>
      simp only [charSeq, matchesAtStart, nullable, deriv, List.map_cons,
        List.isPrefixOf, Bool.false_and, Bool.false_or, Bool.false_eq_true, if_false]
      by_cases he : foldCase ci a = foldCase ci c
      · rw [if_pos he, matchesAtStart_seq_eps, ih]
        have hbeq : (foldCase ci c == foldCase ci a) = true := by
          rw [beq_iff_eq]; exact he.symm
        rw [hbeq, Bool.true_and]
      · rw [if_neg he, matchesAtStart_seq_empty]
        have hbeq : (foldCase ci c == foldCase ci a) = false := by
          rw [beq_eq_false_iff_ne]
          exact fun hcon => he hcon.symm
        rw [hbeq, Bool.false_and]

/-- The first match position of a literal rune sequence is the first
substring occurrence under case folding. -/
theorem findStart_charSeq (ci : Bool) (cs : List Char) :
    ∀ (s : List Char),
    findStart ci (charSeq cs) s =
      stringsIndexCore (cs.map (foldCase ci)) (s.map (foldCase ci)) := by
  intro s
  induction s with
  | nil =>
    simp only [findStart, stringsIndexCore, matchesAtStart_charSeq, List.map_nil]
  | cons a s ih =>
    simp only [findStart, stringsIndexCore, List.map_cons, matchesAtStart_charSeq]
    by_cases hp : (cs.map (foldCase ci)).isPrefixOf
        (foldCase ci a :: s.map (foldCase ci)) = true
    · rw [if_pos hp, if_pos hp]
    · rw [if_neg hp, if_neg hp, ih]

/-- Case-sensitive folding is the identity. -/
theorem map_foldCase_false (l : List Char) : l.map (foldCase false) = l := by
  induction l with
  | nil => rfl
  | cons c cs ih => simp [foldCase, ih]

/-- Case-insensitive folding is ASCII lowercasing. -/
theorem foldCase_true_eq : foldCase true = Char.toLower := by
  funext c
  rfl

/-- A non-empty string has non-empty rune data. -/
theorem str_data_ne (s : String) (h : s ≠ "") : s.data ≠ [] := by
  intro hd
  apply h
  cases s with
  | mk d =>
    simp only at hd
    rw [hd]

/-- The rune data of the lowercased string. -/
theorem strToLower_data (s : String) : (strToLower s).data = s.data.map Char.toLower := rfl

/-- For a non-empty literal pattern, the engine's literal branch agrees,
line by line, with what compiling the same pattern as a regex reports:
same match verdict, same first-match column. -/
theorem literal_matcher_eq_regex (config : SearchConfig)
    (h : isLiteralPattern config.pattern = true) (hne : config.pattern ≠ "")
    (line : String) :
    lineMatchColumn (NewSearchEngine config) line = regexMatchColumn config line := by
  have he : NewSearchEngine config =
      { config := config, pattern := none,
        literalSearch :=
          if config.ignoreCase then strToLower config.pattern else config.pattern } := by
    unfold NewSearchEngine
    rw [if_pos h]
  have hdne := str_data_ne config.pattern hne
  rw [he]
  by_cases hci : config.ignoreCase = true
  · have hlitne : strToLower config.pattern ≠ "" := by
      intro hcon
      apply hdne
      have hd : (strToLower config.pattern).data = [] := by rw [hcon]
      rw [strToLower_data] at hd
      exact List.map_eq_nil_iff.mp hd
    have hrcol : regexMatchColumn config line =
        (stringsIndexCore (config.pattern.data.map Char.toLower)
          (line.data.map Char.toLower)).map (· + 1) := by
      rw [regexMatchColumn,
        show ciPattern config = "(?i)" ++ config.pattern from by rw [ciPattern, if_pos hci],
        regexpCompile_ci_lit config.pattern h]
      show (findStart true (charSeq config.pattern.data) line.data).map (· + 1) = _
      rw [findStart_charSeq, foldCase_true_eq]
    rw [hrcol]
    simp only [lineMatchColumn, hci, if_true]
    rw [if_pos hlitne]
    rw [stringsIndex, strToLower_data, strToLower_data]
    rcases hK : stringsIndexCore (config.pattern.data.map Char.toLower)
        (line.data.map Char.toLower) with _ | idx <;> simp [hK]
  · have hciF : config.ignoreCase = false := by
      rw [Bool.not_eq_true] at hci
      exact hci
    have hrcol : regexMatchColumn config line =
        (stringsIndexCore config.pattern.data line.data).map (· + 1) := by
      rw [regexMatchColumn,
        show ciPattern config = config.pattern from by rw [ciPattern, hciF]; rfl,
        regexpCompile_lit config.pattern h]
      show (findStart false (charSeq config.pattern.data) line.data).map (· + 1) = _
      rw [findStart_charSeq, map_foldCase_false, map_foldCase_false]
    rw [hrcol]
    simp only [lineMatchColumn, hciF, Bool.false_eq_true, if_false]
    rw [if_pos hne]
    rw [stringsIndex]
    rcases hK : stringsIndexCore config.pattern.data line.data with _ | idx <;> simp [hK]

/-! ## Final helper lemmas -/

/-- The engine keeps the configuration it was built from. -/
theorem NewSearchEngine_config (config : SearchConfig) :
    (NewSearchEngine config).config = config := by
  unfold NewSearchEngine
  split_ifs
  · rfl
  · rfl
  · rcases h : regexpCompile ("(?i)" ++ config.pattern) with _ | cr <;> simp [h]
  · rcases h : regexpCompile config.pattern with _ | cr <;> simp [h]

/-- Any non-error search result is the run of the whole pipeline with
the engine built from the configuration. -/
theorem runSearch_ok_inv (config : SearchConfig) (root : List FSEntry)
    (ctx : Option Nat) (r : SearchResults)
    (hok : runSearch config root ctx = .ok r) :
    r = runPhase (NewSearchEngine config) root ctx := by
  by_cases hl : isLiteralPattern config.pattern = true
  · rw [runSearch_ok config root ctx (Or.inl hl)] at hok
    injection hok with h
    exact h.symm
  · rcases hcs : regexpCompile (ciPattern config) with _ | cr
    · rw [runSearch_err config root ctx (by rw [Bool.not_eq_true] at hl; exact hl) hcs]
        at hok
      cases hok
    · rw [runSearch_ok config root ctx (Or.inr (by rw [hcs]; rfl))] at hok
      injection hok with h
      exact h.symm

/-- When no line ever matches, the whole run delivers no matches. -/
theorem runFiles_nomatch (e : SearchEngine)
    (hnm : ∀ line, lineMatchColumn e line = none) :
    ∀ (files : List FileInfo) (c : Nat) (ctx : Option Nat),
    (runFiles e files c ctx).ms = [] := by
  intro files
  induction files with
  | nil => intro c ctx; rfl
  | cons f rest ih =>
    intro c ctx
    rw [runFiles]
    by_cases hd : ctxDone ctx = true
    · rw [if_pos hd]
    · rw [if_neg hd]
      have hms : (searchFileGo e c f ctx).ms = [] := by
        rw [searchFileGo]
        split_ifs
        · rfl
        · exact scanLines_nomatch e c f.path hnm _ _ _ _ _ _
      rcases herr : (searchFileGo e c f ctx).err with _ | er
      · simp only [herr]
        by_cases hhit : (emitMatches e.config.maxResults (searchFileGo e c f ctx).ms c).2.2
            = true
        · rw [hms] at hhit
          simp [emitMatches] at hhit
        · rw [if_neg hhit]
          simp only [hms, emitMatches, ih, List.append_nil]
      · simp only [herr]
        exact ih c _

/-! ## Concrete inputs used by counterexamples and witnesses -/

/-- A baseline configuration: literal pattern `func`, no filters, no
cap, no timeout. -/
def cfgBase : SearchConfig :=
  { searchPath := "root", pattern := "func", maxWorkers := 4, bufferSize := 65536,
    maxResults := 0, useOptimization := true, useGitignore := false,
    ignoreCase := false, filePattern := "", contextLines := 0,
    includeHidden := false, timeoutMs := 0 }

/-- One matching file at the root. -/
def rootW1 : List FSEntry := [.file "a.go" "func\n".data false]

/-- Two files, three matches, listed out of final order. -/
def rootW2 : List FSEntry :=
  [.file "b.txt" "func\nx\nfunc\n".data false, .file "a.txt" "func\n".data false]

/-- Three single-match files (for the result cap). -/
def rootW3 : List FSEntry :=
  [.file "a.txt" "func\n".data false, .file "b.txt" "func\n".data false,
   .file "c.txt" "func\n".data false]

/-- A match on the second line, after one context line. -/
def rootW8 : List FSEntry := [.file "a.go" "x\nfunc\n".data false]

/-- A matching file reachable only through a hidden directory. -/
def rootCX1 : List FSEntry := [.dir ".hidden" [.file "a.txt" "func\n".data false]]

/-- A three-line file whose first line matches. -/
def rootCX6 : List FSEntry := [.file "a.go" "func\nb\nc\n".data false]

/-- The file of `rootCX6` as the walker delivers it. -/
def fileCX6 : FileInfo := ⟨"root/a.go", "a.go", "func\nb\nc\n".data, false⟩

/-! ## The claims -/

/-- C1, as stated, is false on the code: `rootCX1` holds one non-binary,
non-hidden regular file under the root with one matching line, so the
claimed count is 1, but the search prunes the hidden directory the file
sits in and reports zero matches with empty statistics. -/
theorem c1_counterexample :
    c1ClaimCount cfgBase rootCX1 = 1 ∧
    runSearch cfgBase rootCX1 none = .ok ⟨[], ⟨0, 0, 0⟩⟩ :=
  ⟨rfl, rfl⟩

/-- C1 (amended): for every search with no file-glob filter, no result
limit, hidden entries excluded, and an uncancelled context, the match
count reported in the returned results — which is also the length of
the match list, each matching line contributing exactly one match —
equals the number of matching lines summed over all non-binary,
non-hidden regular files reachable from the root path without
descending into hidden directories. -/
theorem c1_match_count (config : SearchConfig) (root : List FSEntry)
    (r : SearchResults) (hglob : config.filePattern = "")
    (hmax : config.maxResults = 0) (hhid : config.includeHidden = false)
    (hok : runSearch config root none = .ok r) :
    r.stats.matchesFound = c1AmendedCount config root ∧
    r.Matches.length = c1AmendedCount config root := by
  obtain rfl := runSearch_ok_inv config root none r hok
  have hcount : (runPhase (NewSearchEngine config) root none).Matches.length =
      c1AmendedCount config root := by
    simp only [runPhase, NewSearchEngine_config]
    rw [runFiles_none (NewSearchEngine config)
      (by rw [NewSearchEngine_config]; exact hmax)
      (walkList config config.searchPath root) 0
      (fun f hf => walkList_readable config config.searchPath root f hf)]
    rw [sortMatches_length, List.length_flatMap]
    have hfun : (List.length ∘ fileMatches (NewSearchEngine config)) =
        fileMatchCount (NewSearchEngine config) := by
      funext f
      exact fileMatches_length (NewSearchEngine config) f
    rw [hfun]
    rw [walkList_pruned config hhid hglob config.searchPath root]
    rfl
  exact ⟨hcount, hcount⟩

/-- Witness for C1 at a concrete tree with one matching file. -/
theorem c1_witness :
    (⟨[⟨"root/a.go", 1, 1, "func", []⟩], ⟨1, 5, 1⟩⟩ : SearchResults).stats.matchesFound =
      c1AmendedCount cfgBase rootW1 ∧
    (⟨[⟨"root/a.go", 1, 1, "func", []⟩], ⟨1, 5, 1⟩⟩ : SearchResults).Matches.length =
      c1AmendedCount cfgBase rootW1 :=
  c1_match_count cfgBase rootW1 ⟨[⟨"root/a.go", 1, 1, "func", []⟩], ⟨1, 5, 1⟩⟩
    rfl rfl rfl rfl

/-- C2: for every search that returns without an error, the match list
of the returned results is sorted non-decreasingly by file path and then
line number: adjacent matches satisfy `a.file < b.file` or
(`a.file = b.file` and `a.line ≤ b.line`). -/
theorem c2_result_order (config : SearchConfig) (root : List FSEntry)
    (ctx : Option Nat) (r : SearchResults)
    (hok : runSearch config root ctx = .ok r) :
    r.Matches.Chain' fun a b =>
      a.file < b.file ∨ (a.file = b.file ∧ a.line ≤ b.line) := by
  obtain rfl := runSearch_ok_inv config root ctx r hok
  have hp := sortMatches_pairwise
    (runFiles (NewSearchEngine config)
      (walkList (NewSearchEngine config).config
        (NewSearchEngine config).config.searchPath root) 0 ctx).ms
  have hp₂ : (runPhase (NewSearchEngine config) root ctx).Matches.Pairwise
      fun a b => a.file < b.file ∨ (a.file = b.file ∧ a.line ≤ b.line) := by
    refine hp.imp ?_
    intro a b hab
    simp only [matchLE, Bool.or_eq_true, Bool.and_eq_true, decide_eq_true_eq,
      strLT_iff] at hab
    exact hab
  exact hp₂.chain'

/-- Witness for C2 at a concrete search whose raw match order crosses
files. -/
theorem c2_witness :
    List.Chain' (fun a b : SearchMatch =>
        a.file < b.file ∨ (a.file = b.file ∧ a.line ≤ b.line))
      [⟨"root/a.txt", 1, 1, "func", []⟩, ⟨"root/b.txt", 1, 1, "func", []⟩,
       ⟨"root/b.txt", 3, 1, "func", []⟩] :=
  c2_result_order cfgBase rootW2 none
    ⟨[⟨"root/a.txt", 1, 1, "func", []⟩, ⟨"root/b.txt", 1, 1, "func", []⟩,
      ⟨"root/b.txt", 3, 1, "func", []⟩], ⟨2, 17, 3⟩⟩ rfl

/-- C3: for every uncancelled search with a positive maximum-result
count N over a tree whose walked files contain `total` matching lines,
the returned match list has exactly `min N total` entries, and the
reported `matchesFound` equals that same number. -/
theorem c3_cap (config : SearchConfig) (root : List FSEntry) (N : Nat)
    (r : SearchResults) (hN : 0 < N) (hmax : config.maxResults = N)
    (hok : runSearch config root none = .ok r) :
    r.Matches.length = min N (walkMatchTotal config root) ∧
    r.stats.matchesFound = r.Matches.length := by
  obtain rfl := runSearch_ok_inv config root none r hok
  refine ⟨?_, rfl⟩
  simp only [runPhase, NewSearchEngine_config]
  rw [sortMatches_length]
  rw [runFiles_capped (NewSearchEngine config) N
    (by rw [NewSearchEngine_config]; exact hmax) hN
    (walkList config config.searchPath root) 0 (by omega)
    (fun f hf => walkList_readable config config.searchPath root f hf)]
  rw [Nat.sub_zero]
  have hfun : ((walkList config config.searchPath root).map
      fun f => (fileMatches (NewSearchEngine config) f).length) =
      (walkList config config.searchPath root).map
        (fileMatchCount (NewSearchEngine config)) := by
    have hfn : (fun f => (fileMatches (NewSearchEngine config) f).length) =
        fileMatchCount (NewSearchEngine config) := by
      funext f
      exact fileMatches_length _ f
    rw [hfn]
  rw [hfun]
  rfl

/-- Witness for C3: cap 2 against 3 matching lines yields exactly 2. -/
theorem c3_witness :
    (⟨[⟨"root/a.txt", 1, 1, "func", []⟩, ⟨"root/b.txt", 1, 1, "func", []⟩],
        ⟨2, 10, 2⟩⟩ : SearchResults).Matches.length =
      min 2 (walkMatchTotal { cfgBase with maxResults := 2 } rootW3) ∧
    (⟨[⟨"root/a.txt", 1, 1, "func", []⟩, ⟨"root/b.txt", 1, 1, "func", []⟩],
        ⟨2, 10, 2⟩⟩ : SearchResults).stats.matchesFound =
      (⟨[⟨"root/a.txt", 1, 1, "func", []⟩, ⟨"root/b.txt", 1, 1, "func", []⟩],
        ⟨2, 10, 2⟩⟩ : SearchResults).Matches.length :=
  c3_cap { cfgBase with maxResults := 2 } rootW3 2
    ⟨[⟨"root/a.txt", 1, 1, "func", []⟩, ⟨"root/b.txt", 1, 1, "func", []⟩],
      ⟨2, 10, 2⟩⟩ (by decide) rfl rfl

/-- C4: a non-literal pattern that fails to compile makes `Search`
return the invalid-pattern error — identically for every tree and every
context, so no filesystem work can have been observed — and this is the
only condition surfaced as a hard error: any literal or compilable
pattern yields a non-error result on every tree and context. -/
theorem c4_invalid_pattern (config : SearchConfig) :
    (isLiteralPattern config.pattern = false →
      regexpCompile (ciPattern config) = none →
      ∀ (root root₂ : List FSEntry) (ctx ctx₂ : Option Nat),
        runSearch config root ctx = .error .invalidPattern ∧
        runSearch config root ctx = runSearch config root₂ ctx₂) ∧
    ((isLiteralPattern config.pattern = true ∨
        (regexpCompile (ciPattern config)).isSome = true) →
      ∀ (root : List FSEntry) (ctx : Option Nat),
        ∃ r, runSearch config root ctx = .ok r) := by
  constructor
  · intro hl hc root root₂ ctx ctx₂
    refine ⟨runSearch_err config root ctx hl hc, ?_⟩
    rw [runSearch_err config root ctx hl hc, runSearch_err config root₂ ctx₂ hl hc]
  · intro h root ctx
    exact ⟨_, runSearch_ok config root ctx h⟩

/-- Witness for C4: the unbalanced class `[invalid` errors with no tree,
and the literal `func` never errors. -/
theorem c4_witness :
    runSearch { cfgBase with pattern := "[invalid" } rootW1 none =
      .error .invalidPattern ∧
    ∃ r, runSearch cfgBase rootW1 none = .ok r :=
  ⟨((c4_invalid_pattern { cfgBase with pattern := "[invalid" }).1
      (by decide) (by decide) rootW1 [] none none).1,
   (c4_invalid_pattern cfgBase).2 (Or.inl (by decide)) rootW1 none⟩

/-- C5 (code bug): a search whose timeout expires before any match is
produced does not return the distinct status `Search timed out.`: the
engine swallows the cancellation and returns an empty result with no
error, so the handler takes the empty-result path and returns `""`,
exactly as for a completed search with no matches.  The `Find` call
below is the failing input evaluated on the code. -/
theorem c5_timeout_status :
    HandleSearchCode ⟨"root", "func", none, none, none, none, none, some 100⟩
      4 rootCX6 0 = .ok "" ∧
    Find "func" "root" [SearchOption.withTimeout 100] 4 rootCX6 0 =
      .ok ⟨[], ⟨0, 0, 0⟩⟩ :=
  ⟨rfl, rfl⟩

/-- C6, as stated, is false on the code: scanning `fileCX6` under a
deadline of two lines accumulates one match and seven bytes before the
cancellation point, and the claim says they are included in the result —
but the worker discards an errored scan, so the returned results carry
no match, no bytes and no scanned file (the error itself is indeed not
propagated). -/
theorem c6_counterexample :
    (searchFileGo (NewSearchEngine cfgBase) 0 fileCX6 (some 2)).ms =
      [⟨"root/a.go", 1, 1, "func", []⟩] ∧
    (searchFileGo (NewSearchEngine cfgBase) 0 fileCX6 (some 2)).bytes = 7 ∧
    (searchFileGo (NewSearchEngine cfgBase) 0 fileCX6 (some 2)).err =
      some .cancelled ∧
    runSearch cfgBase rootCX6 (some 2) = .ok ⟨[], ⟨0, 0, 0⟩⟩ :=
  ⟨rfl, rfl, rfl, rfl⟩

/-- C6 (amended): for every uncapped search with a valid pattern that a
deadline context cancels mid-scan, the caller receives a results value
with no error propagated, whose matches and statistics are exactly those
of the files fully scanned before the cancellation point: the partially
scanned file's accumulated matches and byte count are discarded, not
included. -/
theorem c6_partial_results (config : SearchConfig) (root : List FSEntry) (k : Nat)
    (hmax : config.maxResults = 0)
    (hvalid : isLiteralPattern config.pattern = true ∨
      (regexpCompile (ciPattern config)).isSome = true) :
    ∃ r, runSearch config root (some k) = .ok r ∧
    ∃ n ≤ (walkList config config.searchPath root).length,
      r.Matches = sortMatches
        (((walkList config config.searchPath root).take n).flatMap
          (fileMatches (NewSearchEngine config))) ∧
      r.stats.filesScanned = n ∧
      r.stats.bytesScanned =
        (((walkList config config.searchPath root).take n).map fileScanBytes).sum ∧
      r.stats.matchesFound = r.Matches.length := by
  refine ⟨_, runSearch_ok config root (some k) hvalid, ?_⟩
  obtain ⟨n, hn, h1, h2, h3⟩ := runFiles_cancel (NewSearchEngine config)
    (by rw [NewSearchEngine_config]; exact hmax)
    (walkList config config.searchPath root) 0 k
    (fun f hf => walkList_readable config config.searchPath root f hf)
  refine ⟨n, hn, ?_, ?_, ?_, ?_⟩
  · simp only [runPhase, NewSearchEngine_config]
    rw [h1]
  · simp only [runPhase, NewSearchEngine_config]
    exact h2
  · simp only [runPhase, NewSearchEngine_config]
    exact h3
  · rfl

/-- Witness for C6 at a deadline that lets the single file complete. -/
theorem c6_witness :
    ∃ r, runSearch cfgBase [.file "b.txt" "func\n".data false] (some 9) = .ok r ∧
    ∃ n ≤ (walkList cfgBase cfgBase.searchPath
        [.file "b.txt" "func\n".data false]).length,
      r.Matches = sortMatches
        (((walkList cfgBase cfgBase.searchPath
            [.file "b.txt" "func\n".data false]).take n).flatMap
          (fileMatches (NewSearchEngine cfgBase))) ∧
      r.stats.filesScanned = n ∧
      r.stats.bytesScanned =
        (((walkList cfgBase cfgBase.searchPath
            [.file "b.txt" "func\n".data false]).take n).map fileScanBytes).sum ∧
      r.stats.matchesFound = r.Matches.length :=
  c6_partial_results cfgBase [.file "b.txt" "func\n".data false] 9 rfl
    (Or.inl (by decide))

/-- C7: a file whose lowercased extension is on the deny-list is
classified binary with no content read (the verdict is independent of
content and readability); for any other extension the file is classified
binary exactly when its first 512 bytes contain a zero byte or the read
fails. -/
theorem c7_binary_classifier (f : FileInfo) :
    (binaryExts.contains (strToLower (extOf f.path)) = true →
      ∀ (content : List Char) (readErr : Bool),
        isBinaryFile ⟨f.path, f.name, content, readErr⟩ = true) ∧
    (binaryExts.contains (strToLower (extOf f.path)) = false →
      (isBinaryFile f = true ↔
        f.readErr = true ∨ (f.content.take 512).contains (Char.ofNat 0) = true)) := by
  constructor
  · intro hd content readErr
    simp only [isBinaryFile]
    rw [if_pos hd]
  · intro hd
    have hbin : isBinaryFile f =
        (if f.readErr then true else (f.content.take 512).contains (Char.ofNat 0)) := by
      simp only [isBinaryFile, hd, Bool.false_eq_true, if_false]
    rw [hbin]
    by_cases hr : f.readErr = true <;> simp [hr]

/-- Witness for C7: a deny-listed extension in mixed case, and a text
extension with a zero byte in the head. -/
theorem c7_witness :
    isBinaryFile ⟨"root/x.EXE", "x.EXE", ['a'], false⟩ = true ∧
    (isBinaryFile ⟨"root/x.txt", "x.txt", ['a', Char.ofNat 0], false⟩ = true ↔
      (⟨"root/x.txt", "x.txt", ['a', Char.ofNat 0], false⟩ : FileInfo).readErr = true ∨
      (((⟨"root/x.txt", "x.txt", ['a', Char.ofNat 0], false⟩ : FileInfo).content.take
        512).contains (Char.ofNat 0)) = true) :=
  ⟨(c7_binary_classifier ⟨"root/x.EXE", "x.EXE", ['z'], true⟩).1 (by decide) ['a'] false,
   (c7_binary_classifier ⟨"root/x.txt", "x.txt", ['a', Char.ofNat 0], false⟩).2
     (by decide)⟩

/-- C8: in every returned match, a context-line count of zero yields an
empty context; the context never exceeds the configured count, falls
short of it only when the match sits within the first `contextLines`
lines of its file, and consists exactly of the lines of the matched file
immediately preceding the matched line (never the matched line itself),
clipped to the start of the file. -/
theorem c8_context_lines (config : SearchConfig) (root : List FSEntry)
    (ctx : Option Nat) (r : SearchResults)
    (hok : runSearch config root ctx = .ok r) :
    ∀ m ∈ r.Matches,
      (config.contextLines = 0 → m.context = []) ∧
      m.context.length ≤ config.contextLines ∧
      (m.context.length < config.contextLines → m.line ≤ config.contextLines) ∧
      ∃ f ∈ walkList config config.searchPath root,
        m.file = f.path ∧
        m.context = ((splitLines f.content).take (m.line - 1)).drop
          (m.line - 1 - config.contextLines) := by
  obtain rfl := runSearch_ok_inv config root ctx r hok
  intro m hm
  simp only [runPhase, NewSearchEngine_config] at hm
  have hm₂ := (sortMatches_mem m _).mp hm
  obtain ⟨f, hf, c₂, ctx₂, hmem⟩ :=
    runFiles_mem (NewSearchEngine config) _ _ _ m hm₂
  have hprop := searchFileGo_prop (NewSearchEngine config) c₂ f ctx₂ m hmem
  simp only [matchProp, NewSearchEngine_config] at hprop
  obtain ⟨hfile, hline, hlinele, hctx, hctxlen⟩ := hprop
  refine ⟨?_, by omega, by omega, f, hf, hfile, hctx⟩
  intro h0
  rw [h0] at hctxlen
  have h00 : m.context.length = 0 := by omega
  exact List.length_eq_zero.mp h00

/-- Witness for C8 at context count 2 with one preceding line. -/
theorem c8_witness :
    (({ cfgBase with contextLines := 2 } : SearchConfig).contextLines = 0 →
      (⟨"root/a.go", 2, 1, "func", ["x"]⟩ : SearchMatch).context = []) ∧
    (⟨"root/a.go", 2, 1, "func", ["x"]⟩ : SearchMatch).context.length ≤
      ({ cfgBase with contextLines := 2 } : SearchConfig).contextLines ∧
    ((⟨"root/a.go", 2, 1, "func", ["x"]⟩ : SearchMatch).context.length <
        ({ cfgBase with contextLines := 2 } : SearchConfig).contextLines →
      (⟨"root/a.go", 2, 1, "func", ["x"]⟩ : SearchMatch).line ≤
        ({ cfgBase with contextLines := 2 } : SearchConfig).contextLines) ∧
    ∃ f ∈ walkList { cfgBase with contextLines := 2 }
        ({ cfgBase with contextLines := 2 } : SearchConfig).searchPath rootW8,
      (⟨"root/a.go", 2, 1, "func", ["x"]⟩ : SearchMatch).file = f.path ∧
      (⟨"root/a.go", 2, 1, "func", ["x"]⟩ : SearchMatch).context =
        ((splitLines f.content).take
          ((⟨"root/a.go", 2, 1, "func", ["x"]⟩ : SearchMatch).line - 1)).drop
          ((⟨"root/a.go", 2, 1, "func", ["x"]⟩ : SearchMatch).line - 1 -
            ({ cfgBase with contextLines := 2 } : SearchConfig).contextLines) :=
  c8_context_lines { cfgBase with contextLines := 2 } rootW8 none
    ⟨[⟨"root/a.go", 2, 1, "func", ["x"]⟩], ⟨1, 7, 1⟩⟩ rfl
    ⟨"root/a.go", 2, 1, "func", ["x"]⟩ (List.mem_singleton.mpr rfl)

/-- C9, as stated, is false on the code for the empty pattern: `""` has
no metacharacter, the literal matcher (guarded by a non-empty needle)
reports no match on the line `abc`, yet compiling the same pattern as a
regex reports a match at column 1. -/
theorem c9_counterexample :
    isLiteralPattern "" = true ∧
    lineMatchColumn (NewSearchEngine { cfgBase with pattern := "" }) "abc" = none ∧
    regexMatchColumn { cfgBase with pattern := "" } "abc" = some 1 :=
  ⟨rfl, rfl, rfl⟩

/-- C9 (amended): for every non-empty pattern free of the
metacharacters, the engine's literal branch — a substring search, on
case-folded text when configured — reports a match with the column of
its first occurrence on exactly the lines, and at exactly the position,
that compiling the same pattern as a regular expression would report. -/
theorem c9_literal_refines_regex (config : SearchConfig)
    (h : isLiteralPattern config.pattern = true) (hne : config.pattern ≠ "")
    (line : String) :
    lineMatchColumn (NewSearchEngine config) line = regexMatchColumn config line :=
  literal_matcher_eq_regex config h hne line

/-- Witness for C9 on a concrete line, case-sensitive and folded. -/
theorem c9_witness :
    lineMatchColumn (NewSearchEngine cfgBase) "a func b" =
      regexMatchColumn cfgBase "a func b" ∧
    lineMatchColumn (NewSearchEngine { cfgBase with ignoreCase := true }) "a FUNC b" =
      regexMatchColumn { cfgBase with ignoreCase := true } "a FUNC b" :=
  ⟨c9_literal_refines_regex cfgBase (by decide) (by decide) "a func b",
   c9_literal_refines_regex { cfgBase with ignoreCase := true } (by decide)
     (by decide) "a FUNC b"⟩

/-- C10: for every configuration whose pattern is the empty string and
every tree and context, the search completes without error and returns
zero matches: the empty pattern is classified literal, the stored needle
is empty, and neither the literal branch (guarded by a non-empty needle)
nor the regex branch (no regex was compiled) ever fires. -/
theorem c10_empty_pattern (config : SearchConfig) (root : List FSEntry)
    (ctx : Option Nat) (hp : config.pattern = "") :
    ∃ r, runSearch config root ctx = .ok r ∧ r.Matches = [] ∧
      r.stats.matchesFound = 0 := by
  have hl : isLiteralPattern config.pattern = true := by
    rw [hp]
    rfl
  have hls : (NewSearchEngine config).literalSearch = "" := by
    unfold NewSearchEngine
    rw [if_pos hl]
    simp only [hp]
    rw [show strToLower "" = "" from rfl, ite_self]
  have hpat : (NewSearchEngine config).pattern = none := by
    unfold NewSearchEngine
    rw [if_pos hl]
  have hnm : ∀ line, lineMatchColumn (NewSearchEngine config) line = none := by
    intro line
    rw [lineMatchColumn]
    rw [if_neg (by rw [hls]; simp)]
    simp only [hpat]
  refine ⟨_, runSearch_ok config root ctx (Or.inl hl), ?_, ?_⟩
  · show (runPhase (NewSearchEngine config) root ctx).Matches = []
    simp only [runPhase]
    rw [runFiles_nomatch (NewSearchEngine config) hnm]
    rfl
  · show (runPhase (NewSearchEngine config) root ctx).stats.matchesFound = 0
    simp only [runPhase]
    rw [runFiles_nomatch (NewSearchEngine config) hnm]
    rfl

/-- Witness for C10 on a tree whose file would match any non-empty
needle. -/
theorem c10_witness :
    ∃ r, runSearch { cfgBase with pattern := "" } rootW2 (some 3) = .ok r ∧
      r.Matches = [] ∧ r.stats.matchesFound = 0 :=
  c10_empty_pattern { cfgBase with pattern := "" } rootW2 (some 3) rfl

end Gocreate
